import Mathlib

/-
Verification of the trade-analysis core of `app.py`:
the description parser `extract_option_details` and the reconciliation
engine `analyze_performance`.

Modelling conventions:
* pandas numeric cells are `Option ℚ`: `none` stands for NaN (the result of
  `pd.to_numeric(..., errors='coerce')` on an unparseable string).
  `Series.sum()` skips NaN (pandas default `skipna=True`), which is `sumSome`
  below; scalar arithmetic on NaN propagates NaN, which is `optMul`/`optSub`.
* string cells that may be missing (`Instrument`, `Trans Code`) are
  `Option String`; `Description` is always consulted as a string by the code
  (it is fed to `re.search` and `.str.contains`), so it is a plain `String`.
* `re.search` for the fixed pattern `(\w+)\s+(\d{2}/\d{2}/\d{2})\s+([PC])\s+(\d+)`
  is embedded as a deterministic maximal-munch scanner.  For this particular
  pattern backtracking can never turn a failure into a success:
  - shortening the greedy `\w+` run makes the following `\s+` face a word
    character, and word characters are never whitespace;
  - shortening a greedy `\s+` run makes the next token (`\d`, `P`, `C`) face a
    whitespace character, and those token classes exclude whitespace;
  - the date part has a fixed shape, and the final `(\d+)` ends the pattern so
    its greedy maximal run is what is captured.
  Hence maximal munch at each position, trying start positions left to right,
  is exactly the Python semantics.
* Python dicts are insertion-ordered association lists with
  overwrite-in-place-on-repeated-key (`dinsert`).
-/

attribute [local semireducible] Rat.add Rat.sub Rat.mul Rat.inv

/-! ## Character classes (ASCII fragment of Python `\w`, `\s`, `\d`) -/

def isWordChar (c : Char) : Bool := c.isAlphanum || c = '_'

def isSpaceChar (c : Char) : Bool :=
  c = ' ' || c = '\t' || c = '\n' || c = '\r' || c = '\x0b' || c = '\x0c'

/-! ## Description parser (`extract_option_details`, app.py lines 21-30) -/

structure OptionIdentity where
  ticker : String
  expiration : String
  otype : String
  strike : String
deriving DecidableEq, Repr

/-- The fixed-shape date token `\d{2}/\d{2}/\d{2}`. -/
def matchDate : List Char → Option (List Char × List Char)
  | c1 :: c2 :: c3 :: c4 :: c5 :: c6 :: c7 :: c8 :: rest =>
    if c1.isDigit && c2.isDigit && c3 = '/' && c4.isDigit && c5.isDigit &&
       c6 = '/' && c7.isDigit && c8.isDigit
    then some ([c1, c2, c3, c4, c5, c6, c7, c8], rest)
    else none
  | _ => none

/-- `\s+` followed by a token that is never whitespace: require one whitespace
character and skip the maximal whitespace run. -/
def skipSpaces1 : List Char → Option (List Char)
  | c :: rest => if isSpaceChar c then some (rest.dropWhile isSpaceChar) else none
  | [] => none

/-- Greedy `(\d+)` at the end of the pattern: the maximal digit run, nonempty. -/
def takeDigits1 (cs : List Char) : Option (List Char) :=
  let ds := cs.takeWhile Char.isDigit
  if ds.isEmpty then none else some ds

/-- `[PC]` then `\s+` then the final greedy `(\d+)`, applied after the date. -/
def matchFlagStrike (cs3 : List Char) : Option (Char × List Char) :=
  match cs3 with
  | [] => none
  | f :: cs4 =>
    if f = 'P' || f = 'C' then
      (skipSpaces1 cs4).bind (fun cs5 =>
        (takeDigits1 cs5).map (fun strike => (f, strike)))
    else none

/-- The part of the pattern after the ticker:
`\s+(\d{2}/\d{2}/\d{2})\s+([PC])\s+(\d+)`. -/
def matchTail (cs : List Char) : Option (List Char × Char × List Char) :=
  (skipSpaces1 cs).bind (fun cs1 =>
    (matchDate cs1).bind (fun dc =>
      (skipSpaces1 dc.2).bind (fun cs3 =>
        (matchFlagStrike cs3).map (fun fs => (dc.1, fs.1, fs.2)))))

/-- Attempt the whole pattern at one start position (greedy `(\w+)` ticker,
then `matchTail`; see the header comment for why no backtracking is needed). -/
def matchAt (cs : List Char) : Option OptionIdentity :=
  let t := cs.takeWhile isWordChar
  if t.isEmpty then none
  else
    match matchTail (cs.dropWhile isWordChar) with
    | some (date, f, strike) =>
      some ⟨String.mk t, String.mk date, String.mk [f], String.mk strike⟩
    | none => none

/-- `re.search`: try start positions left to right. -/
def searchGroups : List Char → Option OptionIdentity
  | [] => none
  | c :: cs =>
    match matchAt (c :: cs) with
    | some g => some g
    | none => searchGroups cs

/-- app.py lines 21-30.  Returns the four captured groups, or `none` for the
Python all-`None` tuple.  (The caller's `if ticker:` test is equivalent to an
`isSome` test here because the captured `\w+` ticker is always nonempty.) -/
def extract_option_details (s : String) : Option OptionIdentity :=
  searchGroups s.data

/-! ## Currency normalization (app.py lines 34-38) -/

/-- `Series.replace('[\$,]', '', regex=True)`: delete every `$` and `,`. -/
def stripDC (cs : List Char) : List Char :=
  cs.filter (fun c => !(c = '$' || c = ','))

/-- State machine for the global regex substitution
`.str.replace(r'\(([^)]+)\)', r'-\1')`.
State `none`: scanning outside any candidate match.
State `some buf`: a `(` has been read and `buf` (reversed) holds the
non-`)` characters read since.  A closing `)` with a nonempty buffer completes
a match and emits `-` followed by the buffered content; an empty buffer means
the `( )` pair has no `[^)]+` content, so the regex does not match there and
both characters are emitted literally; end of input with an open buffer emits
the unmatched `(` and content literally. -/
def parenAux : Option (List Char) → List Char → List Char
  | none, [] => []
  | none, c :: rest =>
    if c = '(' then parenAux (some []) rest else c :: parenAux none rest
  | some buf, [] => '(' :: buf.reverse
  | some buf, c :: rest =>
    if c = ')' then
      match buf with
      | [] => '(' :: ')' :: parenAux none rest
      | _ => '-' :: buf.reverse ++ parenAux none rest
    else parenAux (some (c :: buf)) rest

def parenSub (cs : List Char) : List Char := parenAux none cs

/-- Digit run to a natural number. -/
def digitsToNat (cs : List Char) : ℕ :=
  cs.foldl (fun n c => 10 * n + (c.toNat - '0'.toNat)) 0

/-- Unsigned decimal literal: digits, optionally followed by `.` and digits,
with at least one digit overall (`"12"`, `"12.5"`, `"12."`, `".5"`). -/
def parseUnsigned (cs : List Char) : Option ℚ :=
  let ip := cs.takeWhile Char.isDigit
  match cs.dropWhile Char.isDigit with
  | [] => if ip.isEmpty then none else some (mkRat (Int.ofNat (digitsToNat ip)) 1)
  | c :: fr =>
    if c = '.' then
      if (!ip.isEmpty || !fr.isEmpty) && fr.all Char.isDigit then
        some (mkRat (Int.ofNat (digitsToNat ip * 10 ^ fr.length + digitsToNat fr))
          (10 ^ fr.length))
      else none
    else none

/-- `pd.to_numeric(·, errors='coerce')` on the decimal fragment the app
exercises: an optional sign then an unsigned decimal; anything else is NaN. -/
def parseDec (cs : List Char) : Option ℚ :=
  match cs with
  | c :: rest =>
    if c = '-' then (parseUnsigned rest).map (fun q => -q)
    else if c = '+' then parseUnsigned rest
    else parseUnsigned cs
  | [] => none

def toNumeric (s : String) : Option ℚ := parseDec s.data

/-- app.py line 34: the `Price` column is only stripped of `$` and `,`. -/
def cleanPriceStr (s : String) : String := String.mk (stripDC s.data)

/-- app.py lines 36-37: the `Amount` column is stripped of `$` and `,` and
then has `(...)` converted to a leading minus. -/
def cleanAmountStr (s : String) : String := String.mk (parenSub (stripDC s.data))

def cleanPrice (s : String) : Option ℚ := toNumeric (cleanPriceStr s)

def cleanAmount (s : String) : Option ℚ := toNumeric (cleanAmountStr s)

/-! ## Transaction rows -/

/-- One row of the uploaded table, before numeric cleaning.  `none` in
`instrument` / `transCode` is a NaN cell. -/
structure RawRow where
  instrument : Option String
  transCode : Option String
  quantity : String
  price : String
  amount : String
  description : String
deriving DecidableEq, Repr

/-- A row after the cleaning of app.py lines 34-38. -/
structure Row where
  instrument : Option String
  transCode : Option String
  quantity : Option ℚ
  price : Option ℚ
  amount : Option ℚ
  description : String
deriving DecidableEq, Repr

def cleanRow (r : RawRow) : Row :=
  { instrument := r.instrument
    transCode := r.transCode
    quantity := toNumeric r.quantity
    price := cleanPrice r.price
    amount := cleanAmount r.amount
    description := r.description }

/-! ## NaN-aware arithmetic -/

def optMul : Option ℚ → Option ℚ → Option ℚ
  | some a, some b => some (a * b)
  | _, _ => none

/-- `total - x` where `x` may be NaN. -/
def optSubFrom (total : ℚ) : Option ℚ → Option ℚ
  | some x => some (total - x)
  | none => none

/-- Sum of a pandas Series: NaN entries are skipped (`skipna=True`),
an all-NaN or empty Series sums to 0. -/
def sumSome : List (Option ℚ) → ℚ
  | [] => 0
  | none :: l => sumSome l
  | some q :: l => q + sumSome l

/-- `(profit_loss / total_bought) * 100 if total_bought != 0 else 0`.
In Python `NaN != 0` is `True`, and dividing by NaN gives NaN. -/
def retPct (pl tb : Option ℚ) : Option ℚ :=
  match tb with
  | none => none
  | some t => if t = 0 then some 0 else pl.map (fun p => p / t * 100)

/-! ## Partitioning (app.py lines 41-45) -/

/-- Bool substring test: does `needle` occur inside `hay`? -/
def pfxOf : List Char → List Char → Bool
  | [], _ => true
  | _ :: _, [] => false
  | a :: as, b :: bs => a = b && pfxOf as bs

def hasSub (hay needle : List Char) : Bool :=
  if pfxOf needle hay then true
  else
    match hay with
    | [] => false
    | _ :: t => hasSub t needle

/-- `data['Trans Code'].str.contains(tok, na=False)` (the tokens used contain
no regex metacharacters, so `contains` is a substring test). -/
def codeContains (r : Row) (tok : String) : Bool :=
  match r.transCode with
  | some s => hasSub s.data tok.data
  | none => false

def buyRows (rows : List Row) : List Row := rows.filter (fun r => codeContains r "Buy")
def sellRows (rows : List Row) : List Row := rows.filter (fun r => codeContains r "Sell")
def btoRows (rows : List Row) : List Row := rows.filter (fun r => codeContains r "BTO")
def stoRows (rows : List Row) : List Row := rows.filter (fun r => codeContains r "STO")

/-- app.py line 45: computed by the code but never consulted afterwards. -/
def achRows (rows : List Row) : List Row := rows.filter (fun r => codeContains r "ACH")

/-! ## Performance records and the dict -/

structure PerfRec where
  totalQuantity : Option ℚ
  profitLoss : Option ℚ
  returnPct : Option ℚ
deriving DecidableEq, Repr

/-- Python dict assignment `m[k] = v`: overwrite in place, else append. -/
def dinsert : List (String × PerfRec) → String → PerfRec → List (String × PerfRec)
  | [], k, v => [(k, v)]
  | (k', v') :: rest, k, v =>
    if k' = k then (k', v) :: rest else (k', v') :: dinsert rest k v

def dlookup : List (String × PerfRec) → String → Option PerfRec
  | [], _ => none
  | (k', v) :: rest, k => if k' = k then some v else dlookup rest k

/-! ## Stock matching (app.py lines 51-69) -/

/-- `stock_buy_transactions['Instrument'].dropna().unique()`:
instruments of the Buy subset, NaN dropped, deduplicated keeping first
occurrences in order. -/
def dedupFirst : List String → List String → List String
  | _, [] => []
  | seen, x :: xs =>
    if x ∈ seen then dedupFirst seen xs else x :: dedupFirst (x :: seen) xs

def uniqueTickers (buys : List Row) : List String :=
  dedupFirst [] (buys.filterMap (fun r => r.instrument))

def instrRows (rows : List Row) (t : String) : List Row :=
  rows.filter (fun r => decide (r.instrument = some t))

/-- The body of app.py lines 58-66 for one ticker with nonempty buys and sells. -/
def stockRec (buys sells : List Row) : PerfRec :=
  let totalBought := sumSome (buys.map (fun r => optMul r.quantity r.price))
  let totalSold := sumSome (sells.map (fun r => optMul r.quantity r.price))
  let profitLoss := totalSold - totalBought
  { totalQuantity := some (sumSome (buys.map (fun r => r.quantity)))
    profitLoss := some profitLoss
    returnPct := retPct (some profitLoss) (some totalBought) }

/-- The key/record written by one iteration of the stock loop, or `none` when
the iteration goes to the unresolved branch instead. -/
def stockWrite (buysAll sellsAll : List Row) (t : String) : Option (String × PerfRec) :=
  if instrRows buysAll t ≠ [] ∧ instrRows sellsAll t ≠ [] then
    some (t, stockRec (instrRows buysAll t) (instrRows sellsAll t))
  else none

/-- The unresolved entry appended by one iteration of the stock loop, if any. -/
def stockUnres (buysAll sellsAll : List Row) (t : String) : Option String :=
  if instrRows buysAll t ≠ [] ∧ instrRows sellsAll t ≠ [] then none else some t

/-! ## Option matching (app.py lines 72-94) -/

/-- app.py lines 76-79: the STO rows matched for a parsed ticker and
expiration (option type and strike are not consulted). -/
def matchSTO (stos : List Row) (t e : String) : List Row :=
  stos.filter (fun s => hasSub s.description.data e.data && decide (s.instrument = some t))

/-- f-string key `"{ticker} {expiration} {option_type} {strike}"`. -/
def compositeKey (i : OptionIdentity) : String :=
  i.ticker ++ " " ++ i.expiration ++ " " ++ i.otype ++ " " ++ i.strike

/-- app.py lines 82-91 for one BTO row with a nonempty match set. -/
def optionRec (r : Row) (ms : List Row) : PerfRec :=
  let totalBought := optMul r.quantity r.price
  let totalSold := sumSome (ms.map (fun s => optMul s.quantity s.price))
  let profitLoss := optSubFrom totalSold totalBought
  { totalQuantity := r.quantity
    profitLoss := profitLoss
    returnPct := retPct profitLoss totalBought }

/-- The key/record written by one iteration of the option loop, or `none`. -/
def optionWrite (stos : List Row) (r : Row) : Option (String × PerfRec) :=
  match extract_option_details r.description with
  | some i =>
    if matchSTO stos i.ticker i.expiration ≠ [] then
      some (compositeKey i, optionRec r (matchSTO stos i.ticker i.expiration))
    else none
  | none => none

/-- The unresolved entry appended by one iteration of the option loop, if any.
A row whose description does not parse contributes nothing at all. -/
def optionUnres (stos : List Row) (r : Row) : Option String :=
  match extract_option_details r.description with
  | some i =>
    if matchSTO stos i.ticker i.expiration ≠ [] then none
    else some (compositeKey i)
  | none => none

/-! ## The two loops -/

/-- One loop iteration: either write a performance record or append an
unresolved entry (or do nothing). -/
def loopStep (write : α → Option (String × PerfRec)) (unres : α → Option String)
    (st : List (String × PerfRec) × List String) (x : α) :
    List (String × PerfRec) × List String :=
  match write x with
  | some (k, v) => (dinsert st.1 k v, st.2)
  | none =>
    match unres x with
    | some u => (st.1, st.2 ++ [u])
    | none => st

def runLoop (write : α → Option (String × PerfRec)) (unres : α → Option String)
    (st : List (String × PerfRec) × List String) (xs : List α) :
    List (String × PerfRec) × List String :=
  xs.foldl (loopStep write unres) st

/-- app.py lines 32-96. -/
def analyze_performance (raw : List RawRow) :
    List (String × PerfRec) × List String :=
  let rows := raw.map cleanRow
  let buys := buyRows rows
  let sells := sellRows rows
  let btos := btoRows rows
  let stos := stoRows rows
  let afterStock :=
    runLoop (stockWrite buys sells) (stockUnres buys sells) ([], []) (uniqueTickers buys)
  runLoop (optionWrite stos) (optionUnres stos) afterStock btos

/-! ## Views of the two loops used in proofs -/

/-- The performance-dict effect of one loop iteration. -/
def insStep (write : α → Option (String × PerfRec))
    (m : List (String × PerfRec)) (x : α) : List (String × PerfRec) :=
  match write x with
  | some (k, v) => dinsert m k v
  | none => m

/-- The performance-dict effect of a whole loop. -/
def insFold (write : α → Option (String × PerfRec))
    (m : List (String × PerfRec)) (xs : List α) : List (String × PerfRec) :=
  xs.foldl (insStep write) m

/-- The unresolved entry an iteration appends (only reached when it does not
write a performance record). -/
def unresOf (write : α → Option (String × PerfRec)) (unres : α → Option String)
    (x : α) : Option String :=
  match write x with
  | some _ => none
  | none => unres x

/-- The value of the last write to key `k`, scanning left to right. -/
def lastWriteAcc (write : α → Option (String × PerfRec)) (k : String)
    (acc : Option PerfRec) (xs : List α) : Option PerfRec :=
  xs.foldl (fun acc x =>
    match write x with
    | some (k', v) => if k' = k then some v else acc
    | none => acc) acc

def lastWriteVal (write : α → Option (String × PerfRec)) (k : String)
    (xs : List α) : Option PerfRec :=
  lastWriteAcc write k none xs

/-- Does this iteration write to key `k`? -/
def writesKey (write : α → Option (String × PerfRec)) (k : String) (x : α) : Bool :=
  match write x with
  | some (k', _) => k' = k
  | none => false

/-- A row whose transaction code contains none of the four tokens the engine
partitions on (`Buy`, `Sell`, `BTO`, `STO`); for example a pure ACH row. -/
def unclassified (r : RawRow) : Bool :=
  match r.transCode with
  | some s =>
    !hasSub s.data "Buy".data && !hasSub s.data "Sell".data &&
    !hasSub s.data "BTO".data && !hasSub s.data "STO".data
  | none => true

/-- Rows whose `Instrument` cell (when present) contains no space, so that a
bare-ticker position key can never coincide with a composite option key. -/
def spaceFreeInstr (r : RawRow) : Bool :=
  match r.instrument with
  | some s => s.data.all (fun c => !(c = ' '))
  | none => true

/-! ## Concrete inputs used by counterexamples and witnesses -/

/-- The spec's stock example: Buy 10 @ 100, Sell 10 @ 120 of `XYZ`. -/
def xyzRows : List RawRow :=
  [ ⟨some "XYZ", some "Buy", "10", "$100", "($1,000.00)", ""⟩,
    ⟨some "XYZ", some "Sell", "10", "$120", "$1,200.00", ""⟩ ]

/-- A stock position whose `Instrument` string is itself a composite option
key; the option loop later overwrites the stock record stored under it. -/
def collideRows : List RawRow :=
  [ ⟨some "X 01/02/03 C 5", some "Buy", "1", "10", "", ""⟩,
    ⟨some "X 01/02/03 C 5", some "Sell", "1", "20", "", ""⟩,
    ⟨some "X", some "BTO", "1", "2", "", "X 01/02/03 C 5"⟩,
    ⟨some "X", some "STO", "1", "5", "", "zz 01/02/03 zz"⟩ ]

/-- A stock `Instrument` equal to a composite key, with a Buy row but no Sell
rows, next to an option position that resolves under the same key. -/
def collideRows2 : List RawRow :=
  [ ⟨some "Y 02/03/04 P 7", some "Buy", "2", "10", "", ""⟩,
    ⟨some "Y", some "BTO", "1", "3", "", "Y 02/03/04 P 7"⟩,
    ⟨some "Y", some "STO", "1", "8", "", "qq 02/03/04 qq"⟩ ]

/-- A stock `Instrument` equal to a composite key, unresolved on the stock
side while the option side resolves the same key. -/
def collideRows3 : List RawRow :=
  [ ⟨some "Z 03/04/05 C 9", some "Buy", "4", "2", "", ""⟩,
    ⟨some "Z", some "BTO", "1", "2", "", "Z 03/04/05 C 9"⟩,
    ⟨some "Z", some "STO", "1", "7", "", "xx 03/04/05 xx"⟩ ]

/-- A buy row whose `Quantity` cell does not parse, next to clean rows. -/
def badNumRows : List RawRow :=
  [ ⟨some "A", some "Buy", "1", "10", "", ""⟩,
    ⟨some "A", some "Buy", "x", "10", "", ""⟩,
    ⟨some "A", some "Sell", "1", "30", "", ""⟩ ]

/-- A BTO row whose `Price` cell does not parse, with a matching STO. -/
def badOptRows : List RawRow :=
  [ ⟨some "PLTR", some "BTO", "1", "abc", "", "PLTR 01/19/24 C 25"⟩,
    ⟨some "PLTR", some "STO", "1", "4.00", "", "PLTR 01/19/24 C 25"⟩ ]

/-- A BTO and an STO for the same ticker and expiration but different
option type and strike. -/
def looseMatchRows : List RawRow :=
  [ ⟨some "PLTR", some "BTO", "1", "2.50", "", "PLTR 01/19/24 C 25"⟩,
    ⟨some "PLTR", some "STO", "1", "4.00", "", "PLTR 01/19/24 P 30"⟩ ]

/-- Two BTO rows parsing to the identical option identity, with one
matching STO. -/
def twoOpensRows : List RawRow :=
  [ ⟨some "PLTR", some "BTO", "1", "2", "", "PLTR 01/19/24 C 25"⟩,
    ⟨some "PLTR", some "BTO", "3", "1", "", "PLTR 01/19/24 C 25"⟩,
    ⟨some "PLTR", some "STO", "1", "4", "", "PLTR 01/19/24 C 25"⟩ ]

/-- A resolved stock position next to an open (unresolved) one. -/
def mixedRows : List RawRow :=
  [ ⟨some "XYZ", some "Buy", "10", "$100", "", ""⟩,
    ⟨some "XYZ", some "Sell", "10", "$120", "", ""⟩,
    ⟨some "AAA", some "Buy", "5", "50", "", ""⟩ ]

/-- A pure ACH deposit row: its transaction code contains none of the four
matching tokens. -/
def achRow : RawRow := ⟨none, some "ACH", "", "", "$500.00", "ACH deposit"⟩

/-- The invariant shape of every identity produced by the parser: a nonempty
word-character ticker, a digit-slash date of exactly eight characters, a `P`
or `C` type, and a nonempty digit strike. -/
def IdShaped (i : OptionIdentity) : Prop :=
  (i.ticker.data ≠ [] ∧ ∀ c ∈ i.ticker.data, isWordChar c = true) ∧
  (∃ a b c d e f : Char, a.isDigit = true ∧ b.isDigit = true ∧ c.isDigit = true ∧
    d.isDigit = true ∧ e.isDigit = true ∧ f.isDigit = true ∧
    i.expiration.data = [a, b, '/', c, d, '/', e, f]) ∧
  (i.otype = "P" ∨ i.otype = "C") ∧
  (i.strike.data ≠ [] ∧ ∀ c ∈ i.strike.data, c.isDigit = true)

/-- The five tokens of the pattern occur somewhere in the character list, in
order and with whitespace separators: a word-character ticker run, a
`dd/dd/dd` date, an uppercase `P` or `C` flag, and a digit strike run.  A
description matches the regex exactly when it has this shape; a description
missing any of the five tokens (ticker, date, flag, strike, or the
whitespace separators) does not have it. -/
def HasOptionShape (cs : List Char) : Prop :=
  ∃ pre t w1 w2 w3 k post : List Char, ∃ d1 d2 d3 d4 d5 d6 f : Char,
    cs = pre ++ (t ++ (w1 ++ ([d1, d2, '/', d3, d4, '/', d5, d6] ++
      (w2 ++ f :: (w3 ++ (k ++ post)))))) ∧
    t ≠ [] ∧ (∀ c ∈ t, isWordChar c = true) ∧
    w1 ≠ [] ∧ (∀ c ∈ w1, isSpaceChar c = true) ∧
    w2 ≠ [] ∧ (∀ c ∈ w2, isSpaceChar c = true) ∧
    w3 ≠ [] ∧ (∀ c ∈ w3, isSpaceChar c = true) ∧
    d1.isDigit = true ∧ d2.isDigit = true ∧ d3.isDigit = true ∧
    d4.isDigit = true ∧ d5.isDigit = true ∧ d6.isDigit = true ∧
    (f = 'P' ∨ f = 'C') ∧
    k ≠ [] ∧ (∀ c ∈ k, c.isDigit = true)

/-! # Theorems -/

/-! ## Generic helper lemmas -/

theorem stripDC_idem (cs : List Char) : stripDC (stripDC cs) = stripDC cs := by
  unfold stripDC
  rw [List.filter_filter]
  apply List.filter_congr
  intro c _
  cases h : (!(c = '$' || c = ',')) <;> simp [h]

theorem parenAux_none_of_no_paren :
    ∀ cs : List Char, (∀ c ∈ cs, c ≠ '(') → parenAux none cs = cs := by
  intro cs
  induction cs with
  | nil => intro _; rfl
  | cons c rest ih =>
    intro h
    have hc : c ≠ '(' := h c (by simp)
    simp only [parenAux, if_neg hc]
    rw [ih (fun d hd => h d (by simp [hd]))]

theorem parenSub_of_no_paren (cs : List Char) (h : ∀ c ∈ cs, c ≠ '(') :
    parenSub cs = cs := parenAux_none_of_no_paren cs h

theorem parseUnsigned_chars (cs : List Char) (q : ℚ) (h : parseUnsigned cs = some q) :
    ∀ c ∈ cs, c.isDigit = true ∨ c = '.' := by
  intro c hc
  simp only [parseUnsigned] at h
  rw [← List.takeWhile_append_dropWhile Char.isDigit cs] at hc
  split at h
  · rename_i heq
    rw [heq, List.append_nil] at hc
    exact Or.inl (List.mem_takeWhile_imp hc)
  · rename_i c0 fr heq
    rw [heq] at hc
    split at h
    · rename_i h0
      subst h0
      rcases List.mem_append.mp hc with hip | hcf
      · exact Or.inl (List.mem_takeWhile_imp hip)
      · rcases List.mem_cons.mp hcf with hcc | hfr
        · exact Or.inr hcc
        · split at h
          · rename_i hcond
            exact Or.inl (List.all_eq_true.mp ((Bool.and_eq_true _ _).mp hcond).2 c hfr)
          · exact Option.noConfusion h
    · exact Option.noConfusion h

theorem parseDec_chars (cs : List Char) (q : ℚ) (h : parseDec cs = some q) :
    ∀ c ∈ cs, c.isDigit = true ∨ c = '.' ∨ c = '-' ∨ c = '+' := by
  intro c hc
  simp only [parseDec] at h
  split at h
  · rename_i c0 rest
    split at h
    · rename_i h0
      rcases List.mem_cons.mp hc with hcc | hrest
      · exact Or.inr (Or.inr (Or.inl (hcc.trans h0)))
      · rcases Option.map_eq_some'.mp h with ⟨q', hq', _⟩
        rcases parseUnsigned_chars rest q' hq' c hrest with hd | hdot
        · exact Or.inl hd
        · exact Or.inr (Or.inl hdot)
    · split at h
      · rename_i h1
        rcases List.mem_cons.mp hc with hcc | hrest
        · exact Or.inr (Or.inr (Or.inr (hcc.trans h1)))
        · rcases parseUnsigned_chars rest q h c hrest with hd | hdot
          · exact Or.inl hd
          · exact Or.inr (Or.inl hdot)
      · rcases parseUnsigned_chars _ q h c hc with hd | hdot
        · exact Or.inl hd
        · exact Or.inr (Or.inl hdot)
  · exact Option.noConfusion h

theorem parsed_char_not_special (c : Char)
    (h : c.isDigit = true ∨ c = '.' ∨ c = '-' ∨ c = '+') :
    c ≠ '$' ∧ c ≠ ',' ∧ c ≠ '(' := by
  rcases h with hd | rfl | rfl | rfl
  · refine ⟨?_, ?_, ?_⟩ <;> · intro he; rw [he] at hd; exact absurd hd (by decide)
  · exact ⟨by decide, by decide, by decide⟩
  · exact ⟨by decide, by decide, by decide⟩
  · exact ⟨by decide, by decide, by decide⟩

theorem parseDec_fixed (cs : List Char) (q : ℚ) (h : parseDec cs = some q) :
    stripDC cs = cs ∧ parenSub cs = cs := by
  constructor
  · apply List.filter_eq_self.mpr
    intro c hc
    obtain ⟨h1, h2, _⟩ := parsed_char_not_special c (parseDec_chars cs q h c hc)
    simp [h1, h2]
  · apply parenSub_of_no_paren
    intro c hc
    exact (parsed_char_not_special c (parseDec_chars cs q h c hc)).2.2

/-! ## C7: currency normalization -/

/-- C7 counterexample: the claim says parenthesized negatives are converted
for both fields, but the `Price` column never gets the parentheses
substitution, so `"($500.00)"` as a price coerces to NaN, not `-500`. -/
theorem c7_price_paren_cex :
    cleanPrice "($500.00)" = none ∧ ¬ cleanPrice "($500.00)" = some (-500) := by
  exact ⟨by decide, by decide⟩

/-- C7 amended: both fields drop `$` and `,`; only the `Amount` field converts
enclosing parentheses to a leading minus (`"($500.00)"` is `-500` as an amount
but null as a price); re-normalizing an already-normalized string gives the
same numeric value (unconditionally for prices, and for every amount string
whose normalization parses). -/
theorem c7_currency_normalization_amended :
    cleanPrice "$1,234.56" = some (123456 / 100 : ℚ) ∧
    cleanAmount "$1,234.56" = some (123456 / 100 : ℚ) ∧
    cleanAmount "($500.00)" = some (-500) ∧
    cleanPrice "($500.00)" = none ∧
    (∀ s : String, cleanPrice (cleanPriceStr s) = cleanPrice s) ∧
    (∀ s : String, ∀ q : ℚ, cleanAmount s = some q →
      cleanAmount (cleanAmountStr s) = some q) := by
  refine ⟨by decide, by decide, by decide, by decide, ?_, ?_⟩
  · intro s
    show toNumeric (cleanPriceStr (cleanPriceStr s)) = toNumeric (cleanPriceStr s)
    simp only [cleanPriceStr, toNumeric, String.data]
    rw [stripDC_idem]
  · intro s q h
    have h' : parseDec (parenSub (stripDC s.data)) = some q := h
    obtain ⟨hs, hp⟩ := parseDec_fixed _ q h'
    show parseDec (parenSub (stripDC (parenSub (stripDC s.data)))) = some q
    rw [hs, hp]
    exact h'

/-- C7 witness: re-normalizing the normalized `"($500.00)"` amount still
yields `-500`. -/
theorem c7_witness :
    cleanAmount (cleanAmountStr "($500.00)") = some (-500) :=
  c7_currency_normalization_amended.2.2.2.2.2 "($500.00)" (-500) (by decide)

/-! ## Parser shape lemmas -/

theorem matchDate_shape (cs date rest : List Char) (h : matchDate cs = some (date, rest)) :
    (∃ a b c d e f : Char, a.isDigit = true ∧ b.isDigit = true ∧ c.isDigit = true ∧
      d.isDigit = true ∧ e.isDigit = true ∧ f.isDigit = true ∧
      date = [a, b, '/', c, d, '/', e, f]) ∧ cs = date ++ rest := by
  unfold matchDate at h
  split at h
  · rename_i c1 c2 c3 c4 c5 c6 c7 c8 rest' 
    split at h
    · rename_i hcond
      obtain ⟨hdate, hrest⟩ := Prod.mk.injEq .. ▸ Option.some.inj h
      simp only [Bool.and_eq_true, decide_eq_true_eq] at hcond
      obtain ⟨⟨⟨⟨⟨⟨⟨h1, h2⟩, h3⟩, h4⟩, h5⟩, h6⟩, h7⟩, h8⟩ := hcond
      subst hdate hrest
      exact ⟨⟨c1, c2, c4, c5, c7, c8, h1, h2, h4, h5, h7, h8, by rw [h3, h6]⟩, by rw [h3, h6]; rfl⟩
    · exact Option.noConfusion h
  · exact Option.noConfusion h

theorem takeDigits1_shape (cs ds : List Char) (h : takeDigits1 cs = some ds) :
    ds ≠ [] ∧ ∀ c ∈ ds, c.isDigit = true := by
  simp only [takeDigits1] at h
  split at h
  · exact Option.noConfusion h
  · rename_i hne
    obtain rfl := Option.some.inj h
    refine ⟨fun hnil => hne (by rw [hnil]; rfl), fun c hc => List.mem_takeWhile_imp hc⟩

theorem matchFlagStrike_shape (cs3 : List Char) (f : Char) (strike : List Char)
    (h : matchFlagStrike cs3 = some (f, strike)) :
    (f = 'P' ∨ f = 'C') ∧ strike ≠ [] ∧ (∀ c ∈ strike, c.isDigit = true) ∧
    ∃ cs4, cs3 = f :: cs4 := by
  cases cs3 with
  | nil => exact Option.noConfusion h
  | cons f0 cs4 =>
    simp only [matchFlagStrike] at h
    split at h
    · rename_i hf
      rw [Option.bind_eq_some] at h
      obtain ⟨cs5, _, h⟩ := h
      rw [Option.map_eq_some'] at h
      obtain ⟨st, hst, h⟩ := h
      rw [Prod.mk.injEq] at h
      obtain ⟨hf2, hs⟩ := h
      rw [← hf2, ← hs]
      exact ⟨by simpa using hf, (takeDigits1_shape cs5 st hst).1,
        (takeDigits1_shape cs5 st hst).2, cs4, rfl⟩
    · exact Option.noConfusion h

theorem matchTail_shape (cs date : List Char) (f : Char) (strike : List Char)
    (h : matchTail cs = some (date, f, strike)) :
    (∃ a b c d e f' : Char, a.isDigit = true ∧ b.isDigit = true ∧ c.isDigit = true ∧
      d.isDigit = true ∧ e.isDigit = true ∧ f'.isDigit = true ∧
      date = [a, b, '/', c, d, '/', e, f']) ∧
    (f = 'P' ∨ f = 'C') ∧ strike ≠ [] ∧ ∀ c ∈ strike, c.isDigit = true := by
  unfold matchTail at h
  rw [Option.bind_eq_some] at h
  obtain ⟨cs1, _, h⟩ := h
  rw [Option.bind_eq_some] at h
  obtain ⟨dc, hdt, h⟩ := h
  obtain ⟨dt, cs2⟩ := dc
  rw [Option.bind_eq_some] at h
  obtain ⟨cs3, _, h⟩ := h
  rw [Option.map_eq_some'] at h
  obtain ⟨fs, hfs, h⟩ := h
  obtain ⟨f0, st⟩ := fs
  rw [Prod.mk.injEq] at h
  obtain ⟨hd, h⟩ := h
  rw [Prod.mk.injEq] at h
  obtain ⟨hf2, hs⟩ := h
  subst hd hf2 hs
  obtain ⟨hflag, hne, hdig, _⟩ := matchFlagStrike_shape cs3 f0 st hfs
  exact ⟨(matchDate_shape cs1 dt cs2 hdt).1, hflag, hne, hdig⟩

theorem matchAt_shape (cs : List Char) (i : OptionIdentity) (h : matchAt cs = some i) :
    IdShaped i := by
  simp only [matchAt] at h
  split at h
  · exact Option.noConfusion h
  · rename_i hne
    split at h
    · rename_i date f strike hmt
      obtain rfl := Option.some.inj h
      obtain ⟨hdate, hflag, hstrike⟩ := matchTail_shape _ date f strike hmt
      refine ⟨⟨?_, ?_⟩, ?_, ?_, ?_⟩
      · show cs.takeWhile isWordChar ≠ []
        intro hnil
        rw [List.isEmpty_iff] at hne
        exact hne hnil
      · intro c hc
        exact List.mem_takeWhile_imp hc
      · exact hdate
      · rcases hflag with hP | hC
        · exact Or.inl (by rw [hP])
        · exact Or.inr (by rw [hC])
      · exact hstrike
    · exact Option.noConfusion h

theorem searchGroups_shape :
    ∀ cs : List Char, ∀ i : OptionIdentity, searchGroups cs = some i → IdShaped i := by
  intro cs
  induction cs with
  | nil => intro i h; exact Option.noConfusion h
  | cons c rest ih =>
    intro i h
    simp only [searchGroups] at h
    split at h
    · rename_i g hm
      obtain rfl := Option.some.inj h
      exact matchAt_shape _ g hm
    · exact ih i h

theorem extract_shape (s : String) (i : OptionIdentity)
    (h : extract_option_details s = some i) : IdShaped i :=
  searchGroups_shape s.data i h

/-! ## C9: decimal strikes -/

/-- C9 counterexample: the pattern has no anchor after `(\d+)`, so a decimal
strike such as `25.50` does match, capturing only the integer part `25`;
the parser does not return the empty identity. -/
theorem c9_decimal_strike_cex :
    extract_option_details "PLTR 01/19/24 C 25.50" =
      some ⟨"PLTR", "01/19/24", "C", "25"⟩ ∧
    extract_option_details "PLTR 01/19/24 C 25.50" ≠ none := by
  exact ⟨by decide, by decide⟩

/-- C9 amended: a description with a fractional strike still matches, with the
captured strike truncated at the decimal point; what does hold is that every
captured strike is a nonempty string of digits (whole number). -/
theorem c9_strike_truncated_to_digits :
    extract_option_details "PLTR 01/19/24 C 25.50" =
      some ⟨"PLTR", "01/19/24", "C", "25"⟩ ∧
    ∀ s : String, ∀ i : OptionIdentity, extract_option_details s = some i →
      i.strike.data ≠ [] ∧ ∀ c ∈ i.strike.data, c.isDigit = true := by
  refine ⟨by decide, ?_⟩
  intro s i h
  exact (extract_shape s i h).2.2.2

/-- C9 witness: the strike captured from the decimal-strike description is
itself a nonempty digit string. -/
theorem c9_witness :
    (OptionIdentity.mk "PLTR" "01/19/24" "C" "25").strike.data ≠ [] ∧
    ∀ c ∈ (OptionIdentity.mk "PLTR" "01/19/24" "C" "25").strike.data, c.isDigit = true :=
  c9_strike_truncated_to_digits.2 "PLTR 01/19/24 C 25.50"
    ⟨"PLTR", "01/19/24", "C", "25"⟩ (by decide)

/-! ## C8: malformed numeric cells -/

/-- C8 counterexample: the Buy row with unparseable quantity `"x"` becomes
NaN, but the pandas sums skip NaN entries, so the reconciliation of ticker
`A` still produces real-valued aggregates (cost `10`, proceeds `30`,
profit/loss `20`), not a nulled-out aggregate as the claim states. -/
theorem c8_bad_row_does_not_null_aggregate :
    toNumeric "x" = none ∧
    (cleanRow ⟨some "A", some "Buy", "x", "10", "", ""⟩).quantity = none ∧
    dlookup (analyze_performance badNumRows).1 "A" =
      some ⟨some 1, some 20, some 200⟩ := by
  exact ⟨by decide, by decide, by decide⟩

/-- C8 amended: a malformed numeric cell becomes null without an exception,
but a null entry is skipped by the Series sums (its row simply drops out of
the aggregate, as if excluded); null does propagate through the per-BTO-row
scalar cost, nulling that option record's profit/loss and return. -/
theorem c8_null_skipped_in_sums_propagates_per_row :
    (∀ l1 l2 : List (Option ℚ), sumSome (l1 ++ none :: l2) = sumSome (l1 ++ l2)) ∧
    dlookup (analyze_performance badNumRows).1 "A" =
      some ⟨some 1, some 20, some 200⟩ ∧
    toNumeric "abc" = none ∧
    dlookup (analyze_performance badOptRows).1 "PLTR 01/19/24 C 25" =
      some ⟨some 1, none, none⟩ := by
  refine ⟨?_, by decide, by decide, by decide⟩
  intro l1 l2
  induction l1 with
  | nil => rfl
  | cons o l1 ih =>
    cases o with
    | none => simpa using ih
    | some q =>
      simp only [List.cons_append, sumSome, List.append_eq]
      rw [ih]

/-- C8 witness: a null entry in the middle of a Series contributes nothing to
its sum. -/
theorem c8_witness :
    sumSome ([some 1] ++ none :: [some 2]) = sumSome ([some 1] ++ [some 2]) :=
  c8_null_skipped_in_sums_propagates_per_row.1 [some 1] [some 2]

/-! ## Substring characterization -/

theorem pfxOf_iff (needle hay : List Char) :
    pfxOf needle hay = true ↔ ∃ t, hay = needle ++ t := by
  induction needle generalizing hay with
  | nil => exact iff_of_true rfl ⟨hay, (List.nil_append hay).symm⟩
  | cons a as ih =>
    cases hay with
    | nil =>
      simp only [pfxOf]
      constructor
      · intro habs; exact Bool.noConfusion habs
      · rintro ⟨t, ht⟩; exact List.noConfusion ht
    | cons b bs =>
      simp only [pfxOf, Bool.and_eq_true, decide_eq_true_eq]
      constructor
      · rintro ⟨rfl, hp⟩
        obtain ⟨t, rfl⟩ := (ih bs).mp hp
        exact ⟨t, rfl⟩
      · rintro ⟨t, ht⟩
        obtain ⟨rfl, h2⟩ := List.cons.inj ht
        exact ⟨rfl, (ih bs).mpr ⟨t, h2⟩⟩

theorem hasSub_iff (hay needle : List Char) :
    hasSub hay needle = true ↔ ∃ p q, hay = p ++ needle ++ q := by
  induction hay with
  | nil =>
    unfold hasSub
    cases needle with
    | nil => simp [pfxOf]
    | cons a as =>
      simp only [pfxOf]
      constructor
      · intro habs; exact Bool.noConfusion habs
      · rintro ⟨p, q, hpq⟩
        exact absurd (congrArg List.length hpq) (by simp; omega)
  | cons c t ih =>
    unfold hasSub
    by_cases hp : pfxOf needle (c :: t) = true
    · rw [if_pos hp]
      obtain ⟨u, hu⟩ := (pfxOf_iff needle (c :: t)).mp hp
      exact ⟨fun _ => ⟨[], u, by simpa using hu⟩, fun _ => rfl⟩
    · rw [if_neg hp]
      rw [ih]
      constructor
      · rintro ⟨p, q, rfl⟩
        exact ⟨c :: p, q, rfl⟩
      · rintro ⟨p, q, hpq⟩
        cases p with
        | nil =>
          exfalso
          apply hp
          rw [pfxOf_iff]
          rw [List.nil_append] at hpq
          exact ⟨q, hpq⟩
        | cons c0 p' =>
          obtain ⟨rfl, h2⟩ := List.cons.inj hpq
          exact ⟨p', q, h2⟩

/-! ## C2: the option matching criterion -/

/-- C2: for a BTO row whose description parses, the matched STO rows are
exactly the STO-subset rows whose instrument equals the parsed ticker and
whose description contains the parsed expiration as a substring; the parsed
type and strike do not appear in the criterion. -/
theorem c2_option_match_criterion (raw : List RawRow) (r : Row) (i : OptionIdentity)
    (_hr : r ∈ btoRows (raw.map cleanRow))
    (_hp : extract_option_details r.description = some i) :
    ∀ s : Row, s ∈ matchSTO (stoRows (raw.map cleanRow)) i.ticker i.expiration ↔
      (s ∈ stoRows (raw.map cleanRow) ∧ s.instrument = some i.ticker ∧
        ∃ p q : List Char, s.description.data = p ++ i.expiration.data ++ q) := by
  intro s
  unfold matchSTO
  rw [List.mem_filter]
  constructor
  · rintro ⟨hs, hcond⟩
    rw [Bool.and_eq_true] at hcond
    obtain ⟨hsub, hinstr⟩ := hcond
    exact ⟨hs, by simpa using hinstr, (hasSub_iff _ _).mp hsub⟩
  · rintro ⟨hs, hinstr, p, q, hd⟩
    refine ⟨hs, ?_⟩
    rw [Bool.and_eq_true]
    exact ⟨(hasSub_iff _ _).mpr ⟨p, q, hd⟩, by simpa using hinstr⟩

/-- C2 witness: the STO row for a different strike and type (`P 30`) is
matched for the BTO parsed as `C 25`, since only ticker and expiration are
filtered on. -/
theorem c2_witness :
    cleanRow ⟨some "PLTR", some "STO", "1", "4.00", "", "PLTR 01/19/24 P 30"⟩ ∈
      matchSTO (stoRows (looseMatchRows.map cleanRow)) "PLTR" "01/19/24" :=
  (c2_option_match_criterion looseMatchRows
    (cleanRow ⟨some "PLTR", some "BTO", "1", "2.50", "", "PLTR 01/19/24 C 25"⟩)
    ⟨"PLTR", "01/19/24", "C", "25"⟩ (by decide) (by decide)
    (cleanRow ⟨some "PLTR", some "STO", "1", "4.00", "", "PLTR 01/19/24 P 30"⟩)).mpr
    ⟨by decide, by decide,
      ⟨"PLTR ".data, " P 30".data, by decide⟩⟩

/-! ## C10: unclassified rows are inert -/

theorem filter_skip_middle (p : Row → Bool) (pre post : List Row) (r : Row)
    (hr : p r = false) :
    (pre ++ r :: post).filter p = (pre ++ post).filter p := by
  simp [List.filter_append, List.filter_cons, hr]

/-- C10: inserting a row whose transaction code contains none of `Buy`,
`Sell`, `BTO`, `STO` (for example an ACH row) anywhere in the table leaves
both outputs of the engine unchanged. -/
theorem c10_unclassified_rows_inert (pre post : List RawRow) (r : RawRow)
    (h : unclassified r = true) :
    analyze_performance (pre ++ r :: post) = analyze_performance (pre ++ post) := by
  have hcode : ∀ tok : String, tok = "Buy" ∨ tok = "Sell" ∨ tok = "BTO" ∨ tok = "STO" →
      codeContains (cleanRow r) tok = false := by
    intro tok htok
    show (match r.transCode with
      | some s => hasSub s.data tok.data
      | none => false) = false
    unfold unclassified at h
    cases hcase : r.transCode with
    | none => rfl
    | some s =>
      rw [hcase] at h
      simp only [Bool.and_eq_true, Bool.not_eq_true'] at h
      obtain ⟨⟨⟨h1, h2⟩, h3⟩, h4⟩ := h
      rcases htok with rfl | rfl | rfl | rfl
      · exact h1
      · exact h2
      · exact h3
      · exact h4
  have hmap : ∀ post' : List RawRow,
      (pre ++ r :: post').map cleanRow = pre.map cleanRow ++ cleanRow r :: post'.map cleanRow := by
    intro post'
    simp [List.map_append]
  have hmap2 : (pre ++ post).map cleanRow = pre.map cleanRow ++ post.map cleanRow := by
    simp [List.map_append]
  simp only [analyze_performance, buyRows, sellRows, btoRows, stoRows, hmap, hmap2]
  rw [filter_skip_middle (fun row => codeContains row "Buy") _ _ _
      (hcode "Buy" (Or.inl rfl)),
    filter_skip_middle (fun row => codeContains row "Sell") _ _ _
      (hcode "Sell" (Or.inr (Or.inl rfl))),
    filter_skip_middle (fun row => codeContains row "BTO") _ _ _
      (hcode "BTO" (Or.inr (Or.inr (Or.inl rfl)))),
    filter_skip_middle (fun row => codeContains row "STO") _ _ _
      (hcode "STO" (Or.inr (Or.inr (Or.inr rfl))))]

/-- C10 witness: appending a pure ACH row to the stock example changes
nothing. -/
theorem c10_witness :
    analyze_performance (xyzRows ++ achRow :: []) = analyze_performance (xyzRows ++ []) :=
  c10_unclassified_rows_inert xyzRows [] achRow (by decide)

/-! ## Character-class and scanning lemmas for the parser contract -/

theorem isWordChar_of_isDigit (c : Char) (h : c.isDigit = true) : isWordChar c = true := by
  unfold isWordChar Char.isAlphanum
  rw [h]
  simp

theorem not_space_of_isDigit (c : Char) (h : c.isDigit = true) : isSpaceChar c = false := by
  have h1 : c ≠ ' ' := fun e => by rw [e] at h; exact absurd h (by decide)
  have h2 : c ≠ '\t' := fun e => by rw [e] at h; exact absurd h (by decide)
  have h3 : c ≠ '\n' := fun e => by rw [e] at h; exact absurd h (by decide)
  have h4 : c ≠ '\r' := fun e => by rw [e] at h; exact absurd h (by decide)
  have h5 : c ≠ '\x0b' := fun e => by rw [e] at h; exact absurd h (by decide)
  have h6 : c ≠ '\x0c' := fun e => by rw [e] at h; exact absurd h (by decide)
  simp [isSpaceChar, h1, h2, h3, h4, h5, h6]

theorem not_word_of_isSpace (c : Char) (h : isSpaceChar c = true) : isWordChar c = false := by
  simp only [isSpaceChar, Bool.or_eq_true, decide_eq_true_eq] at h
  rcases h with (((((rfl | rfl) | rfl) | rfl) | rfl) | rfl) <;> decide

theorem takeWhile_append_all (p : Char → Bool) (l1 l2 : List Char)
    (h1 : ∀ a ∈ l1, p a = true)
    (h2 : ∀ c, l2.head? = some c → p c = false) :
    (l1 ++ l2).takeWhile p = l1 := by
  induction l1 with
  | nil =>
    cases l2 with
    | nil => rfl
    | cons c t => simp [List.takeWhile_cons, h2 c rfl]
  | cons a l1 ih =>
    simp [List.cons_append, List.takeWhile_cons, h1 a (by simp),
      ih (fun b hb => h1 b (by simp [hb]))]

theorem dropWhile_append_all (p : Char → Bool) (l1 l2 : List Char)
    (h1 : ∀ a ∈ l1, p a = true)
    (h2 : ∀ c, l2.head? = some c → p c = false) :
    (l1 ++ l2).dropWhile p = l2 := by
  induction l1 with
  | nil =>
    cases l2 with
    | nil => rfl
    | cons c t => simp [List.dropWhile_cons, h2 c rfl]
  | cons a l1 ih =>
    simp [List.cons_append, List.dropWhile_cons, h1 a (by simp),
      ih (fun b hb => h1 b (by simp [hb]))]

theorem skipSpaces1_all (w rest : List Char) (hw : w ≠ [])
    (hsp : ∀ c ∈ w, isSpaceChar c = true)
    (hr : ∀ c, rest.head? = some c → isSpaceChar c = false) :
    skipSpaces1 (w ++ rest) = some rest := by
  cases w with
  | nil => exact absurd rfl hw
  | cons c w' =>
    simp only [List.cons_append, skipSpaces1, hsp c (by simp), if_pos]
    rw [dropWhile_append_all _ w' rest (fun b hb => hsp b (by simp [hb])) hr]

theorem matchDate_wf (d1 d2 d3 d4 d5 d6 : Char) (rest : List Char)
    (h1 : d1.isDigit = true) (h2 : d2.isDigit = true) (h3 : d3.isDigit = true)
    (h4 : d4.isDigit = true) (h5 : d5.isDigit = true) (h6 : d6.isDigit = true) :
    matchDate (d1 :: d2 :: '/' :: d3 :: d4 :: '/' :: d5 :: d6 :: rest) =
      some ([d1, d2, '/', d3, d4, '/', d5, d6], rest) := by
  simp [matchDate, h1, h2, h3, h4, h5, h6]

theorem matchFlagStrike_wf (f : Char) (w3 n : List Char)
    (hw3 : w3 ≠ []) (hsp3 : ∀ c ∈ w3, isSpaceChar c = true)
    (hn : n ≠ []) (hdig : ∀ c ∈ n, c.isDigit = true) :
    matchFlagStrike (f :: (w3 ++ n)) =
      if f = 'P' || f = 'C' then some (f, n) else none := by
  by_cases hf : (f = 'P' || f = 'C') = true
  · rw [if_pos hf]
    simp only [matchFlagStrike, hf, if_true]
    rw [skipSpaces1_all w3 n hw3 hsp3 ?hr]
    case hr =>
      intro c hc
      cases n with
      | nil => exact Option.noConfusion hc
      | cons m n' =>
        have hcm : m = c := Option.some.inj hc
        exact hcm ▸ not_space_of_isDigit m (hdig m (by simp))
    rw [Option.some_bind]
    simp only [takeDigits1, List.takeWhile_eq_self_iff.mpr hdig]
    rw [if_neg (by simpa using hn)]
    rfl
  · rw [if_neg hf]
    simp only [matchFlagStrike, hf]
    rfl

theorem matchTail_wf (w1 w2 w3 n : List Char) (d1 d2 d3 d4 d5 d6 f : Char)
    (hw1 : w1 ≠ []) (hsp1 : ∀ c ∈ w1, isSpaceChar c = true)
    (hw2 : w2 ≠ []) (hsp2 : ∀ c ∈ w2, isSpaceChar c = true)
    (hw3 : w3 ≠ []) (hsp3 : ∀ c ∈ w3, isSpaceChar c = true)
    (h1 : d1.isDigit = true) (h2 : d2.isDigit = true) (h3 : d3.isDigit = true)
    (h4 : d4.isDigit = true) (h5 : d5.isDigit = true) (h6 : d6.isDigit = true)
    (hf : isSpaceChar f = false)
    (hn : n ≠ []) (hdig : ∀ c ∈ n, c.isDigit = true) :
    matchTail (w1 ++ ([d1, d2, '/', d3, d4, '/', d5, d6] ++ (w2 ++ f :: (w3 ++ n)))) =
      if f = 'P' || f = 'C'
      then some ([d1, d2, '/', d3, d4, '/', d5, d6], f, n) else none := by
  unfold matchTail
  rw [show w1 ++ ([d1, d2, '/', d3, d4, '/', d5, d6] ++ (w2 ++ f :: (w3 ++ n))) =
    w1 ++ (d1 :: d2 :: '/' :: d3 :: d4 :: '/' :: d5 :: d6 :: (w2 ++ f :: (w3 ++ n)))
    from by simp]
  rw [skipSpaces1_all w1 _ hw1 hsp1
    (fun c hc => by obtain rfl := Option.some.inj hc; exact not_space_of_isDigit _ h1)]
  rw [Option.some_bind]
  rw [matchDate_wf d1 d2 d3 d4 d5 d6 _ h1 h2 h3 h4 h5 h6]
  rw [Option.some_bind]
  rw [show (([d1, d2, '/', d3, d4, '/', d5, d6], w2 ++ f :: (w3 ++ n)) :
    List Char × List Char).2 = w2 ++ f :: (w3 ++ n) from rfl]
  rw [skipSpaces1_all w2 _ hw2 hsp2
    (fun c hc => by obtain rfl := Option.some.inj hc; exact hf)]
  rw [Option.some_bind]
  rw [matchFlagStrike_wf f w3 n hw3 hsp3 hn hdig]
  by_cases hfc : (f = 'P' || f = 'C') = true
  · rw [if_pos hfc, if_pos hfc]
    rfl
  · rw [if_neg hfc, if_neg hfc]
    rfl

theorem matchAt_split (t rest : List Char) (ht : t ≠ [])
    (hw : ∀ c ∈ t, isWordChar c = true)
    (hr : ∀ c, rest.head? = some c → isWordChar c = false) :
    matchAt (t ++ rest) =
      match matchTail rest with
      | some (date, f, strike) =>
        some ⟨String.mk t, String.mk date, String.mk [f], String.mk strike⟩
      | none => none := by
  simp only [matchAt]
  rw [takeWhile_append_all isWordChar t rest hw hr,
    dropWhile_append_all isWordChar t rest hw hr]
  rw [if_neg (by simp [List.isEmpty_eq_false.mpr ht])]

theorem searchGroups_eq_none (cs : List Char)
    (h : ∀ u : List Char, u ≠ [] → u <:+ cs → matchAt u = none) :
    searchGroups cs = none := by
  induction cs with
  | nil => rfl
  | cons c rest ih =>
    simp only [searchGroups]
    rw [h (c :: rest) (by simp) (List.suffix_refl _)]
    exact ih (fun u hne hsuf => h u hne (hsuf.trans (List.suffix_cons c rest)))

theorem suffix_append_cases (u x y : List Char) (h : u <:+ x ++ y) :
    (∃ x', x' <:+ x ∧ x' ≠ [] ∧ u = x' ++ y) ∨ u <:+ y := by
  induction x with
  | nil => exact Or.inr h
  | cons a x' ih =>
    rw [List.cons_append, List.suffix_cons_iff] at h
    rcases h with rfl | h
    · exact Or.inl ⟨a :: x', List.suffix_refl _, by simp, by simp⟩
    · rcases ih h with ⟨x'', hsuf, hne, rfl⟩ | hy
      · exact Or.inl ⟨x'', hsuf.trans (List.suffix_cons a x'), hne, rfl⟩
      · exact Or.inr hy

/-- A start position whose first character is not a word character fails. -/
theorem matchAt_none_of_head_not_word (c : Char) (rest : List Char)
    (hc : isWordChar c = false) : matchAt (c :: rest) = none := by
  simp [matchAt, List.takeWhile_cons, hc]

/-- A match needs a `/` somewhere after the ticker. -/
theorem matchTail_some_has_slash (cs date : List Char) (f : Char) (strike : List Char)
    (h : matchTail cs = some (date, f, strike)) : '/' ∈ cs := by
  unfold matchTail at h
  rw [Option.bind_eq_some] at h
  obtain ⟨cs1, hskip, h⟩ := h
  rw [Option.bind_eq_some] at h
  obtain ⟨dc, hmd, _⟩ := h
  have h1 : '/' ∈ cs1 := by
    obtain ⟨⟨a, b, c', d, e, f', hshape⟩, hcs⟩ := matchDate_shape cs1 dc.1 dc.2 hmd
    obtain ⟨_, _, _, _, _, _, hdate⟩ := hshape
    rw [hcs, hdate]
    simp
  cases cs with
  | nil => exact Option.noConfusion hskip
  | cons c0 rest =>
    simp only [skipSpaces1] at hskip
    split at hskip
    · obtain rfl := Option.some.inj hskip
      exact List.mem_cons_of_mem c0 ((List.dropWhile_suffix isSpaceChar).mem h1)
    · exact Option.noConfusion hskip

theorem matchAt_none_of_no_slash (u : List Char) (h : ¬ '/' ∈ u) : matchAt u = none := by
  cases hmt : matchTail (u.dropWhile isWordChar) with
  | some v =>
    exfalso
    obtain ⟨date, f, strike⟩ := v
    exact h ((List.dropWhile_suffix isWordChar).mem
      (matchTail_some_has_slash _ date f strike hmt))
  | none =>
    simp only [matchAt, hmt]
    split
    · rfl
    · rfl

/-- Strings without a slash never match anywhere. -/
theorem extract_none_of_no_slash (s : String) (h : ¬ '/' ∈ s.data) :
    extract_option_details s = none :=
  searchGroups_eq_none s.data
    (fun u _ hsuf => matchAt_none_of_no_slash u (fun hm => h (hsuf.mem hm)))

theorem head_mem_left (l1 l2 : List Char) (c : Char) (h : l1 ≠ [])
    (hh : (l1 ++ l2).head? = some c) : c ∈ l1 := by
  rw [List.head?_append_of_ne_nil l1 h] at hh
  exact List.mem_of_mem_head? (Option.mem_def.mpr hh)

theorem matchTail_none_of_head_not_space (c : Char) (cs : List Char)
    (hc : isSpaceChar c = false) : matchTail (c :: cs) = none := by
  simp [matchTail, skipSpaces1, hc]

theorem matchTail_nil_none : matchTail [] = none := rfl

/-- After whitespace, the next characters must form the date: if they start
with a non-digit the tail match fails. -/
theorem matchTail_space_then_not_digit (w : List Char) (f : Char) (Y : List Char)
    (hw : w ≠ []) (hsp : ∀ c ∈ w, isSpaceChar c = true)
    (hfs : isSpaceChar f = false) (hfd : f.isDigit = false) :
    matchTail (w ++ f :: Y) = none := by
  unfold matchTail
  rw [skipSpaces1_all w (f :: Y) hw hsp
    (fun c hc => by rw [← Option.some.inj hc]; exact hfs)]
  rw [Option.some_bind]
  cases hmd : matchDate (f :: Y) with
  | none => rfl
  | some dc =>
    exfalso
    obtain ⟨⟨a, b, c', d, e, f', ha, _, _, _, _, _, hdate⟩, hcs⟩ :=
      matchDate_shape _ dc.1 dc.2 hmd
    rw [hdate] at hcs
    have hfa : f = a := List.head_eq_of_cons_eq hcs
    rw [hfa] at hfd
    rw [hfd] at ha
    exact Bool.noConfusion ha

/-- After whitespace, an all-digit remainder cannot contain the date's
slashes, so the tail match fails. -/
theorem matchTail_space_then_digits (w n : List Char)
    (hw : w ≠ []) (hsp : ∀ c ∈ w, isSpaceChar c = true)
    (hn : n ≠ []) (hdig : ∀ c ∈ n, c.isDigit = true) :
    matchTail (w ++ n) = none := by
  unfold matchTail
  rw [skipSpaces1_all w n hw hsp (fun c hc => by
    cases n with
    | nil => exact Option.noConfusion hc
    | cons m n' =>
      have hmc : m = c := Option.some.inj hc
      exact hmc ▸ not_space_of_isDigit m (hdig m (by simp)))]
  rw [Option.some_bind]
  cases hmd : matchDate n with
  | none => rfl
  | some dc =>
    exfalso
    obtain ⟨⟨a, b, c', d, e, f', _, _, _, _, _, _, hdate⟩, hcs⟩ :=
      matchDate_shape _ dc.1 dc.2 hmd
    have hsl : '/' ∈ n := by
      rw [hcs, hdate]
      simp
    exact absurd (hdig '/' hsl) (by decide)

theorem matchAt_split_none (t rest : List Char) (ht : t ≠ [])
    (hw : ∀ c ∈ t, isWordChar c = true)
    (hr : ∀ c, rest.head? = some c → isWordChar c = false)
    (hmt : matchTail rest = none) : matchAt (t ++ rest) = none := by
  rw [matchAt_split t rest ht hw hr, hmt]

theorem matchAt_none_space_head (w X : List Char) (hw : w ≠ [])
    (hsp : ∀ c ∈ w, isSpaceChar c = true) : matchAt (w ++ X) = none := by
  obtain ⟨c, w', rfl⟩ := List.exists_cons_of_ne_nil hw
  rw [List.cons_append]
  exact matchAt_none_of_head_not_word c _ (not_word_of_isSpace c (hsp c (by simp)))

/-- No start position inside a well-formed shape whose flag position holds a
word character other than `P`/`C` (for example a lowercase `p` or `c`) can
match: the only candidate date window is the real one, and the flag check
fails there. -/
theorem searchGroups_none_bad_flag (t w1 w2 w3 n : List Char)
    (d1 d2 d3 d4 d5 d6 f : Char)
    (_ht : t ≠ []) (htw : ∀ c ∈ t, isWordChar c = true)
    (hw1 : w1 ≠ []) (hsp1 : ∀ c ∈ w1, isSpaceChar c = true)
    (hw2 : w2 ≠ []) (hsp2 : ∀ c ∈ w2, isSpaceChar c = true)
    (hw3 : w3 ≠ []) (hsp3 : ∀ c ∈ w3, isSpaceChar c = true)
    (h1 : d1.isDigit = true) (h2 : d2.isDigit = true) (h3 : d3.isDigit = true)
    (h4 : d4.isDigit = true) (h5 : d5.isDigit = true) (h6 : d6.isDigit = true)
    (hfw : isWordChar f = true) (hfs : isSpaceChar f = false) (hfd : f.isDigit = false)
    (hfc : (f = 'P' || f = 'C') = false)
    (hn : n ≠ []) (hdig : ∀ c ∈ n, c.isDigit = true) :
    searchGroups (t ++ (w1 ++ ([d1, d2, '/', d3, d4, '/', d5, d6] ++
      (w2 ++ f :: (w3 ++ n))))) = none := by
  apply searchGroups_eq_none
  intro u hne hsuf
  rcases suffix_append_cases u t _ hsuf with ⟨t', hts, htne, rfl⟩ | hsuf1
  · -- start inside the ticker: the real tail follows, but the flag fails
    apply matchAt_split_none t' _ htne (fun c hc => htw c (hts.mem hc))
      (fun c hc => not_word_of_isSpace c (hsp1 c (head_mem_left w1 _ c hw1 hc)))
    rw [matchTail_wf w1 w2 w3 n d1 d2 d3 d4 d5 d6 f hw1 hsp1 hw2 hsp2 hw3 hsp3
      h1 h2 h3 h4 h5 h6 hfs hn hdig]
    rw [if_neg (by simp [hfc])]
  · rcases suffix_append_cases u w1 _ hsuf1 with ⟨w1', hws, hwne, rfl⟩ | hsuf2
    · -- start inside the first whitespace run
      exact matchAt_none_space_head w1' _ hwne (fun c hc => hsp1 c (hws.mem hc))
    · rcases suffix_append_cases u [d1, d2, '/', d3, d4, '/', d5, d6] _ hsuf2 with
        ⟨D', hds, hdne, rfl⟩ | hsuf3
      · -- start inside the date token
        rw [List.suffix_cons_iff] at hds
        rcases hds with rfl | hds
        · rw [show ([d1, d2, '/', d3, d4, '/', d5, d6] : List Char) ++
            (w2 ++ f :: (w3 ++ n)) =
            [d1, d2] ++ ('/' :: (d3 :: d4 :: '/' :: d5 :: d6 :: (w2 ++ f :: (w3 ++ n))))
            from by simp]
          exact matchAt_split_none [d1, d2] _ (by simp)
            (by
              intro c hc
              rcases List.mem_pair.mp hc with rfl | rfl
              · exact isWordChar_of_isDigit c h1
              · exact isWordChar_of_isDigit c h2)
            (fun c hc => by rw [← Option.some.inj hc]; decide)
            (matchTail_none_of_head_not_space '/' _ (by decide))
        rw [List.suffix_cons_iff] at hds
        rcases hds with rfl | hds
        · rw [show ([d2, '/', d3, d4, '/', d5, d6] : List Char) ++
            (w2 ++ f :: (w3 ++ n)) =
            [d2] ++ ('/' :: (d3 :: d4 :: '/' :: d5 :: d6 :: (w2 ++ f :: (w3 ++ n))))
            from by simp]
          exact matchAt_split_none [d2] _ (by simp)
            (by
              intro c hc
              rw [List.mem_singleton] at hc
              rw [hc]
              exact isWordChar_of_isDigit d2 h2)
            (fun c hc => by rw [← Option.some.inj hc]; decide)
            (matchTail_none_of_head_not_space '/' _ (by decide))
        rw [List.suffix_cons_iff] at hds
        rcases hds with rfl | hds
        · rw [List.cons_append]
          exact matchAt_none_of_head_not_word '/' _ (by decide)
        rw [List.suffix_cons_iff] at hds
        rcases hds with rfl | hds
        · rw [show ([d3, d4, '/', d5, d6] : List Char) ++ (w2 ++ f :: (w3 ++ n)) =
            [d3, d4] ++ ('/' :: (d5 :: d6 :: (w2 ++ f :: (w3 ++ n)))) from by simp]
          exact matchAt_split_none [d3, d4] _ (by simp)
            (by
              intro c hc
              rcases List.mem_pair.mp hc with rfl | rfl
              · exact isWordChar_of_isDigit c h3
              · exact isWordChar_of_isDigit c h4)
            (fun c hc => by rw [← Option.some.inj hc]; decide)
            (matchTail_none_of_head_not_space '/' _ (by decide))
        rw [List.suffix_cons_iff] at hds
        rcases hds with rfl | hds
        · rw [show ([d4, '/', d5, d6] : List Char) ++ (w2 ++ f :: (w3 ++ n)) =
            [d4] ++ ('/' :: (d5 :: d6 :: (w2 ++ f :: (w3 ++ n)))) from by simp]
          exact matchAt_split_none [d4] _ (by simp)
            (by
              intro c hc
              rw [List.mem_singleton] at hc
              rw [hc]
              exact isWordChar_of_isDigit d4 h4)
            (fun c hc => by rw [← Option.some.inj hc]; decide)
            (matchTail_none_of_head_not_space '/' _ (by decide))
        rw [List.suffix_cons_iff] at hds
        rcases hds with rfl | hds
        · rw [List.cons_append]
          exact matchAt_none_of_head_not_word '/' _ (by decide)
        rw [List.suffix_cons_iff] at hds
        rcases hds with rfl | hds
        · rw [show ([d5, d6] : List Char) ++ (w2 ++ f :: (w3 ++ n)) =
            [d5, d6] ++ (w2 ++ f :: (w3 ++ n)) from rfl]
          exact matchAt_split_none [d5, d6] _ (by simp)
            (by
              intro c hc
              rcases List.mem_pair.mp hc with rfl | rfl
              · exact isWordChar_of_isDigit c h5
              · exact isWordChar_of_isDigit c h6)
            (fun c hc => not_word_of_isSpace c (hsp2 c (head_mem_left w2 _ c hw2 hc)))
            (matchTail_space_then_not_digit w2 f _ hw2 hsp2 hfs hfd)
        rw [List.suffix_cons_iff] at hds
        rcases hds with rfl | hds
        · rw [show ([d6] : List Char) ++ (w2 ++ f :: (w3 ++ n)) =
            [d6] ++ (w2 ++ f :: (w3 ++ n)) from rfl]
          exact matchAt_split_none [d6] _ (by simp)
            (by
              intro c hc
              rw [List.mem_singleton] at hc
              rw [hc]
              exact isWordChar_of_isDigit d6 h6)
            (fun c hc => not_word_of_isSpace c (hsp2 c (head_mem_left w2 _ c hw2 hc)))
            (matchTail_space_then_not_digit w2 f _ hw2 hsp2 hfs hfd)
        exact absurd (List.suffix_nil.mp hds) hdne
      · rcases suffix_append_cases u w2 _ hsuf3 with ⟨w2', hws, hwne, rfl⟩ | hsuf4
        · -- start inside the second whitespace run
          exact matchAt_none_space_head w2' _ hwne (fun c hc => hsp2 c (hws.mem hc))
        · rw [List.suffix_cons_iff] at hsuf4
          rcases hsuf4 with rfl | hsuf5
          · -- start at the flag character itself
            rw [show f :: (w3 ++ n) = [f] ++ (w3 ++ n) from rfl]
            exact matchAt_split_none [f] _ (by simp)
              (by
                intro c hc
                rw [List.mem_singleton] at hc
                rw [hc]
                exact hfw)
              (fun c hc => not_word_of_isSpace c (hsp3 c (head_mem_left w3 _ c hw3 hc)))
              (matchTail_space_then_digits w3 n hw3 hsp3 hn hdig)
          · rcases suffix_append_cases u w3 n hsuf5 with ⟨w3', hws, hwne, rfl⟩ | hsuf6
            · -- start inside the third whitespace run
              exact matchAt_none_space_head w3' _ hwne (fun c hc => hsp3 c (hws.mem hc))
            · -- start inside the strike digits
              rw [show u = u ++ [] from (List.append_nil u).symm]
              exact matchAt_split_none u [] hne
                (fun c hc => isWordChar_of_isDigit c (hdig c (hsuf6.mem hc)))
                (fun c hc => Option.noConfusion hc)
                matchTail_nil_none

theorem extract_wellformed (t w1 w2 w3 n : List Char) (d1 d2 d3 d4 d5 d6 f : Char)
    (ht : t ≠ []) (htw : ∀ c ∈ t, isWordChar c = true)
    (hw1 : w1 ≠ []) (hsp1 : ∀ c ∈ w1, isSpaceChar c = true)
    (hw2 : w2 ≠ []) (hsp2 : ∀ c ∈ w2, isSpaceChar c = true)
    (hw3 : w3 ≠ []) (hsp3 : ∀ c ∈ w3, isSpaceChar c = true)
    (h1 : d1.isDigit = true) (h2 : d2.isDigit = true) (h3 : d3.isDigit = true)
    (h4 : d4.isDigit = true) (h5 : d5.isDigit = true) (h6 : d6.isDigit = true)
    (hf : f = 'P' ∨ f = 'C')
    (hn : n ≠ []) (hdig : ∀ c ∈ n, c.isDigit = true) :
    extract_option_details (String.mk (t ++ (w1 ++ ([d1, d2, '/', d3, d4, '/', d5, d6] ++
      (w2 ++ f :: (w3 ++ n)))))) =
      some ⟨String.mk t, String.mk [d1, d2, '/', d3, d4, '/', d5, d6],
        String.mk [f], String.mk n⟩ := by
  show searchGroups (t ++ (w1 ++ ([d1, d2, '/', d3, d4, '/', d5, d6] ++
    (w2 ++ f :: (w3 ++ n))))) = _
  have hm : matchAt (t ++ (w1 ++ ([d1, d2, '/', d3, d4, '/', d5, d6] ++
      (w2 ++ f :: (w3 ++ n))))) =
      some ⟨String.mk t, String.mk [d1, d2, '/', d3, d4, '/', d5, d6],
        String.mk [f], String.mk n⟩ := by
    rw [matchAt_split t _ ht htw
      (fun c hc => not_word_of_isSpace c (hsp1 c (head_mem_left w1 _ c hw1 hc)))]
    rw [matchTail_wf w1 w2 w3 n d1 d2 d3 d4 d5 d6 f hw1 hsp1 hw2 hsp2 hw3 hsp3
      h1 h2 h3 h4 h5 h6 (by rcases hf with rfl | rfl <;> decide) hn hdig]
    rw [if_pos (by rcases hf with rfl | rfl <;> decide)]
  obtain ⟨c0, t0, rfl⟩ := List.exists_cons_of_ne_nil ht
  rw [List.cons_append] at hm
  rw [List.cons_append]
  simp only [searchGroups]
  rw [hm]

/-! Decomposition of a successful match: a match yields the five tokens in
order, so a matching string always has the shape. -/

theorem skipSpaces1_decomp (cs cs1 : List Char) (h : skipSpaces1 cs = some cs1) :
    ∃ w, cs = w ++ cs1 ∧ w ≠ [] ∧ ∀ c ∈ w, isSpaceChar c = true := by
  cases cs with
  | nil => exact Option.noConfusion h
  | cons c rest =>
    simp only [skipSpaces1] at h
    split at h
    · rename_i hc
      obtain rfl := Option.some.inj h
      refine ⟨c :: rest.takeWhile isSpaceChar, ?_, by simp, ?_⟩
      · rw [List.cons_append, List.takeWhile_append_dropWhile]
      · intro d hd
        rcases List.mem_cons.mp hd with rfl | hd
        · exact hc
        · exact List.mem_takeWhile_imp hd
    · exact Option.noConfusion h

theorem takeDigits1_decomp (cs k : List Char) (h : takeDigits1 cs = some k) :
    ∃ post, cs = k ++ post := by
  simp only [takeDigits1] at h
  split at h
  · exact Option.noConfusion h
  · obtain rfl := Option.some.inj h
    exact ⟨cs.dropWhile Char.isDigit, (List.takeWhile_append_dropWhile _ _).symm⟩

theorem matchFlagStrike_decomp (cs3 : List Char) (f : Char) (strike : List Char)
    (h : matchFlagStrike cs3 = some (f, strike)) :
    ∃ w3 post : List Char, cs3 = f :: (w3 ++ (strike ++ post)) ∧
      w3 ≠ [] ∧ (∀ c ∈ w3, isSpaceChar c = true) := by
  cases cs3 with
  | nil => exact Option.noConfusion h
  | cons f0 cs4 =>
    simp only [matchFlagStrike] at h
    split at h
    · rw [Option.bind_eq_some] at h
      obtain ⟨cs5, hsk, h⟩ := h
      rw [Option.map_eq_some'] at h
      obtain ⟨st, hst, h⟩ := h
      rw [Prod.mk.injEq] at h
      obtain ⟨hf2, hs⟩ := h
      subst hf2 hs
      obtain ⟨w3, hcs4, hw3, hsp3⟩ := skipSpaces1_decomp cs4 cs5 hsk
      obtain ⟨post, hcs5⟩ := takeDigits1_decomp cs5 st hst
      refine ⟨w3, post, ?_, hw3, hsp3⟩
      rw [hcs4, hcs5]
    · exact Option.noConfusion h

theorem matchTail_decomp (cs date : List Char) (f : Char) (strike : List Char)
    (h : matchTail cs = some (date, f, strike)) :
    ∃ w1 w2 w3 post : List Char,
      cs = w1 ++ (date ++ (w2 ++ f :: (w3 ++ (strike ++ post)))) ∧
      w1 ≠ [] ∧ (∀ c ∈ w1, isSpaceChar c = true) ∧
      w2 ≠ [] ∧ (∀ c ∈ w2, isSpaceChar c = true) ∧
      w3 ≠ [] ∧ (∀ c ∈ w3, isSpaceChar c = true) := by
  unfold matchTail at h
  rw [Option.bind_eq_some] at h
  obtain ⟨cs1, hsk1, h⟩ := h
  rw [Option.bind_eq_some] at h
  obtain ⟨dc, hmd, h⟩ := h
  obtain ⟨dt, cs2⟩ := dc
  rw [Option.bind_eq_some] at h
  obtain ⟨cs3, hsk2, h⟩ := h
  rw [Option.map_eq_some'] at h
  obtain ⟨fs, hfs, h⟩ := h
  obtain ⟨f0, st⟩ := fs
  rw [Prod.mk.injEq] at h
  obtain ⟨hd, h⟩ := h
  rw [Prod.mk.injEq] at h
  obtain ⟨hf2, hs⟩ := h
  subst hd hf2 hs
  obtain ⟨w1, hcs, hw1, hsp1⟩ := skipSpaces1_decomp cs cs1 hsk1
  have hcs1 : cs1 = dt ++ cs2 := (matchDate_shape cs1 dt cs2 hmd).2
  obtain ⟨w2, hcs2, hw2, hsp2⟩ := skipSpaces1_decomp cs2 cs3 hsk2
  obtain ⟨w3, post, hcs3, hw3, hsp3⟩ := matchFlagStrike_decomp cs3 f0 st hfs
  refine ⟨w1, w2, w3, post, ?_, hw1, hsp1, hw2, hsp2, hw3, hsp3⟩
  rw [hcs, hcs1, hcs2, hcs3]

theorem matchAt_decomp (u : List Char) (i : OptionIdentity) (h : matchAt u = some i) :
    ∃ f : Char, u = i.ticker.data ++ u.dropWhile isWordChar ∧
      matchTail (u.dropWhile isWordChar) = some (i.expiration.data, f, i.strike.data) ∧
      i.ticker.data ≠ [] ∧ (∀ c ∈ i.ticker.data, isWordChar c = true) := by
  simp only [matchAt] at h
  split at h
  · exact Option.noConfusion h
  · rename_i hne
    split at h
    · rename_i date f strike hmt
      obtain rfl := Option.some.inj h
      refine ⟨f, ?_, hmt, ?_, ?_⟩
      · show u = u.takeWhile isWordChar ++ u.dropWhile isWordChar
        rw [List.takeWhile_append_dropWhile]
      · show u.takeWhile isWordChar ≠ []
        rw [← List.isEmpty_eq_false]
        simpa using hne
      · intro c hc
        exact List.mem_takeWhile_imp hc
    · exact Option.noConfusion h

theorem searchGroups_decomp :
    ∀ cs : List Char, ∀ i : OptionIdentity, searchGroups cs = some i →
      ∃ pre u, cs = pre ++ u ∧ matchAt u = some i := by
  intro cs
  induction cs with
  | nil => intro i h; exact Option.noConfusion h
  | cons c rest ih =>
    intro i h
    simp only [searchGroups] at h
    split at h
    · rename_i g hm
      obtain rfl := Option.some.inj h
      exact ⟨[], c :: rest, rfl, hm⟩
    · obtain ⟨pre, u, hcs, hm⟩ := ih i h
      exact ⟨c :: pre, u, by rw [List.cons_append, hcs], hm⟩

theorem shape_of_extract_some (s : String) (i : OptionIdentity)
    (h : extract_option_details s = some i) : HasOptionShape s.data := by
  obtain ⟨pre, u, hcs, hm⟩ := searchGroups_decomp s.data i h
  obtain ⟨f, hu, hmt, htne, htw⟩ := matchAt_decomp u i hm
  obtain ⟨⟨d1, d2, d3, d4, d5, d6, hd1, hd2, hd3, hd4, hd5, hd6, hdate⟩, hflag, hkne, hkdig⟩ :=
    matchTail_shape _ _ _ _ hmt
  obtain ⟨w1, w2, w3, post, hrest, hw1, hsp1, hw2, hsp2, hw3, hsp3⟩ :=
    matchTail_decomp _ _ _ _ hmt
  refine ⟨pre, i.ticker.data, w1, w2, w3, i.strike.data, post,
    d1, d2, d3, d4, d5, d6, f, ?_, htne, htw, hw1, hsp1, hw2, hsp2, hw3, hsp3,
    hd1, hd2, hd3, hd4, hd5, hd6, hflag, hkne, hkdig⟩
  rw [hcs, hu, hrest, hdate]

/-! Completeness: the shape anywhere in the string forces a match. -/

theorem matchTail_some_shape (w1 w2 w3 k post : List Char) (d1 d2 d3 d4 d5 d6 f : Char)
    (hw1 : w1 ≠ []) (hsp1 : ∀ c ∈ w1, isSpaceChar c = true)
    (hw2 : w2 ≠ []) (hsp2 : ∀ c ∈ w2, isSpaceChar c = true)
    (hw3 : w3 ≠ []) (hsp3 : ∀ c ∈ w3, isSpaceChar c = true)
    (h1 : d1.isDigit = true) (h2 : d2.isDigit = true) (h3 : d3.isDigit = true)
    (h4 : d4.isDigit = true) (h5 : d5.isDigit = true) (h6 : d6.isDigit = true)
    (hf : f = 'P' ∨ f = 'C')
    (hk : k ≠ []) (hkdig : ∀ c ∈ k, c.isDigit = true) :
    matchTail (w1 ++ ([d1, d2, '/', d3, d4, '/', d5, d6] ++
      (w2 ++ f :: (w3 ++ (k ++ post))))) =
      some ([d1, d2, '/', d3, d4, '/', d5, d6], f,
        (k ++ post).takeWhile Char.isDigit) := by
  unfold matchTail
  rw [show w1 ++ ([d1, d2, '/', d3, d4, '/', d5, d6] ++ (w2 ++ f :: (w3 ++ (k ++ post)))) =
    w1 ++ (d1 :: d2 :: '/' :: d3 :: d4 :: '/' :: d5 :: d6 :: (w2 ++ f :: (w3 ++ (k ++ post))))
    from by simp]
  rw [skipSpaces1_all w1 _ hw1 hsp1
    (fun c hc => by rw [← Option.some.inj hc]; exact not_space_of_isDigit _ h1)]
  rw [Option.some_bind]
  rw [matchDate_wf d1 d2 d3 d4 d5 d6 _ h1 h2 h3 h4 h5 h6]
  rw [Option.some_bind]
  rw [show (([d1, d2, '/', d3, d4, '/', d5, d6], w2 ++ f :: (w3 ++ (k ++ post))) :
    List Char × List Char).2 = w2 ++ f :: (w3 ++ (k ++ post)) from rfl]
  rw [skipSpaces1_all w2 _ hw2 hsp2 (fun c hc => by
    rw [← Option.some.inj hc]
    rcases hf with rfl | rfl <;> decide)]
  rw [Option.some_bind]
  simp only [matchFlagStrike]
  rw [if_pos (by rcases hf with rfl | rfl <;> decide)]
  rw [skipSpaces1_all w3 _ hw3 hsp3 ?hkh]
  case hkh =>
    intro c hc
    cases k with
    | nil => exact absurd rfl hk
    | cons m k' =>
      have hmc : m = c := Option.some.inj hc
      exact hmc ▸ not_space_of_isDigit m (hkdig m (by simp))
  rw [Option.some_bind]
  simp only [takeDigits1]
  rw [if_neg ?tne]
  case tne =>
    cases k with
    | nil => exact absurd rfl hk
    | cons m k' =>
      rw [List.cons_append, List.takeWhile_cons_of_pos (hkdig m (by simp))]
      simp
  rfl

theorem searchGroups_isSome (cs : List Char) :
    ∀ u : List Char, u <:+ cs → (matchAt u).isSome = true →
      (searchGroups cs).isSome = true := by
  induction cs with
  | nil =>
    intro u hsuf h
    rw [List.suffix_nil.mp hsuf] at h
    exact Bool.noConfusion h
  | cons c rest ih =>
    intro u hsuf h
    simp only [searchGroups]
    cases hm : matchAt (c :: rest) with
    | some g => simp
    | none =>
      rcases List.suffix_cons_iff.mp hsuf with rfl | hsuf'
      · rw [hm] at h
        exact Bool.noConfusion h
      · exact ih u hsuf' h

theorem extract_some_of_shape (s : String) (h : HasOptionShape s.data) :
    ¬ extract_option_details s = none := by
  obtain ⟨pre, t, w1, w2, w3, k, post, d1, d2, d3, d4, d5, d6, f, heq,
    htne, htw, hw1, hsp1, hw2, hsp2, hw3, hsp3, hd1, hd2, hd3, hd4, hd5, hd6,
    hf, hkne, hkdig⟩ := h
  intro hnone
  have hsuf : (t ++ (w1 ++ ([d1, d2, '/', d3, d4, '/', d5, d6] ++
      (w2 ++ f :: (w3 ++ (k ++ post)))))) <:+ s.data := ⟨pre, heq.symm⟩
  have hm : (matchAt (t ++ (w1 ++ ([d1, d2, '/', d3, d4, '/', d5, d6] ++
      (w2 ++ f :: (w3 ++ (k ++ post))))))).isSome = true := by
    rw [matchAt_split t _ htne htw
      (fun c hc => not_word_of_isSpace c (hsp1 c (head_mem_left w1 _ c hw1 hc)))]
    rw [matchTail_some_shape w1 w2 w3 k post d1 d2 d3 d4 d5 d6 f hw1 hsp1
      hw2 hsp2 hw3 hsp3 hd1 hd2 hd3 hd4 hd5 hd6 hf hkne hkdig]
    rfl
  have hsome := searchGroups_isSome s.data _ hsuf hm
  rw [show extract_option_details s = searchGroups s.data from rfl] at hnone
  rw [hnone] at hsome
  exact Bool.noConfusion hsome

/-- C5: every well-formed `TICKER dd/dd/dd [P|C] NNN` description (word-char
ticker, whitespace separators, uppercase flag, whole-number strike) parses to
exactly its four components; the same shape with a lowercase `p`/`c` flag
returns the empty identity, as does any string with no `/` at all; and in
full generality the parser returns the empty identity exactly when the
string does not contain the five tokens in order with whitespace separators
(`HasOptionShape`), so every string missing one of the five tokens — ticker,
date, flag, strike, or a separator — returns the empty identity.
Concretely, `"PLTR 01/19/24 C 25"` parses to its components, while
`"random text"`, `"PLTR 01/19/24 c 25"` (lowercase flag),
`"PLTR 01/19/24 C"` (missing strike), `"PLTR 01/19/24 X 25"` (bad flag),
`"AB 1/2/3 C 25"` (malformed date) and `"PLTR 01/19/24 C25"` (missing
separator) all return the empty identity. -/
theorem c5_parser_contract :
    (∀ t w1 w2 w3 n : List Char, ∀ d1 d2 d3 d4 d5 d6 f : Char,
      t ≠ [] → (∀ c ∈ t, isWordChar c = true) →
      w1 ≠ [] → (∀ c ∈ w1, isSpaceChar c = true) →
      w2 ≠ [] → (∀ c ∈ w2, isSpaceChar c = true) →
      w3 ≠ [] → (∀ c ∈ w3, isSpaceChar c = true) →
      d1.isDigit = true → d2.isDigit = true → d3.isDigit = true →
      d4.isDigit = true → d5.isDigit = true → d6.isDigit = true →
      (f = 'P' ∨ f = 'C') →
      n ≠ [] → (∀ c ∈ n, c.isDigit = true) →
      extract_option_details (String.mk (t ++ (w1 ++
        ([d1, d2, '/', d3, d4, '/', d5, d6] ++ (w2 ++ f :: (w3 ++ n)))))) =
        some ⟨String.mk t, String.mk [d1, d2, '/', d3, d4, '/', d5, d6],
          String.mk [f], String.mk n⟩) ∧
    (∀ t w1 w2 w3 n : List Char, ∀ d1 d2 d3 d4 d5 d6 f : Char,
      t ≠ [] → (∀ c ∈ t, isWordChar c = true) →
      w1 ≠ [] → (∀ c ∈ w1, isSpaceChar c = true) →
      w2 ≠ [] → (∀ c ∈ w2, isSpaceChar c = true) →
      w3 ≠ [] → (∀ c ∈ w3, isSpaceChar c = true) →
      d1.isDigit = true → d2.isDigit = true → d3.isDigit = true →
      d4.isDigit = true → d5.isDigit = true → d6.isDigit = true →
      (f = 'p' ∨ f = 'c') →
      n ≠ [] → (∀ c ∈ n, c.isDigit = true) →
      extract_option_details (String.mk (t ++ (w1 ++
        ([d1, d2, '/', d3, d4, '/', d5, d6] ++ (w2 ++ f :: (w3 ++ n)))))) = none) ∧
    (∀ s : String, ¬ '/' ∈ s.data → extract_option_details s = none) ∧
    (∀ s : String, extract_option_details s = none ↔ ¬ HasOptionShape s.data) ∧
    extract_option_details "PLTR 01/19/24 C 25" =
      some ⟨"PLTR", "01/19/24", "C", "25"⟩ ∧
    extract_option_details "random text" = none ∧
    extract_option_details "PLTR 01/19/24 c 25" = none ∧
    extract_option_details "PLTR 01/19/24 C" = none ∧
    extract_option_details "PLTR 01/19/24 X 25" = none ∧
    extract_option_details "AB 1/2/3 C 25" = none ∧
    extract_option_details "PLTR 01/19/24 C25" = none := by
  refine ⟨?_, ?_, extract_none_of_no_slash, ?_, by decide, by decide, by decide,
    by decide, by decide, by decide, by decide⟩
  · intro t w1 w2 w3 n d1 d2 d3 d4 d5 d6 f ht htw hw1 hsp1 hw2 hsp2 hw3 hsp3
      hd1 hd2 hd3 hd4 hd5 hd6 hf hn hdig
    exact extract_wellformed t w1 w2 w3 n d1 d2 d3 d4 d5 d6 f ht htw hw1 hsp1
      hw2 hsp2 hw3 hsp3 hd1 hd2 hd3 hd4 hd5 hd6 hf hn hdig
  · intro t w1 w2 w3 n d1 d2 d3 d4 d5 d6 f ht htw hw1 hsp1 hw2 hsp2 hw3 hsp3
      hd1 hd2 hd3 hd4 hd5 hd6 hf hn hdig
    show searchGroups _ = none
    exact searchGroups_none_bad_flag t w1 w2 w3 n d1 d2 d3 d4 d5 d6 f ht htw
      hw1 hsp1 hw2 hsp2 hw3 hsp3 hd1 hd2 hd3 hd4 hd5 hd6
      (by rcases hf with rfl | rfl <;> decide)
      (by rcases hf with rfl | rfl <;> decide)
      (by rcases hf with rfl | rfl <;> decide)
      (by rcases hf with rfl | rfl <;> decide) hn hdig
  · intro s
    constructor
    · intro hnone hshape
      exact extract_some_of_shape s hshape hnone
    · intro hnsh
      cases hex : extract_option_details s with
      | none => rfl
      | some i => exact absurd (shape_of_extract_some s i hex) hnsh

/-- C5 witness: a concrete well-formed description parses to its components,
and the lowercase-flag variant returns the empty identity. -/
theorem c5_witness :
    extract_option_details (String.mk ("QQQ".data ++ (" ".data ++
      (['0', '2', '/', '1', '4', '/', '2', '5'] ++
        (" ".data ++ 'P' :: (" ".data ++ "7".data)))))) =
      some ⟨String.mk "QQQ".data, String.mk ['0', '2', '/', '1', '4', '/', '2', '5'],
        String.mk ['P'], String.mk "7".data⟩ ∧
    extract_option_details (String.mk ("QQQ".data ++ (" ".data ++
      (['0', '2', '/', '1', '4', '/', '2', '5'] ++
        (" ".data ++ 'p' :: (" ".data ++ "7".data)))))) = none :=
  ⟨c5_parser_contract.1 "QQQ".data " ".data " ".data " ".data "7".data
    '0' '2' '1' '4' '2' '5' 'P' (by decide) (by decide) (by decide) (by decide)
    (by decide) (by decide) (by decide) (by decide) (by decide) (by decide)
    (by decide) (by decide) (by decide) (by decide) (Or.inl rfl) (by decide) (by decide),
  c5_parser_contract.2.1 "QQQ".data " ".data " ".data " ".data "7".data
    '0' '2' '1' '4' '2' '5' 'p' (by decide) (by decide) (by decide) (by decide)
    (by decide) (by decide) (by decide) (by decide) (by decide) (by decide)
    (by decide) (by decide) (by decide) (by decide) (Or.inl rfl) (by decide) (by decide)⟩

/-! ## Generic loop lemmas -/

theorem runLoop_fst (write : α → Option (String × PerfRec)) (unres : α → Option String)
    (st : List (String × PerfRec) × List String) (xs : List α) :
    (runLoop write unres st xs).1 = insFold write st.1 xs := by
  induction xs generalizing st with
  | nil => rfl
  | cons x xs ih =>
    show (runLoop write unres (loopStep write unres st x) xs).1 = _
    rw [ih]
    show insFold write (loopStep write unres st x).1 xs = insFold write (insStep write st.1 x) xs
    congr 1
    unfold loopStep insStep
    cases hw : write x with
    | some kv => rfl
    | none =>
      cases hu : unres x with
      | some u => rfl
      | none => rfl

theorem runLoop_snd (write : α → Option (String × PerfRec)) (unres : α → Option String)
    (st : List (String × PerfRec) × List String) (xs : List α) :
    (runLoop write unres st xs).2 = st.2 ++ xs.filterMap (unresOf write unres) := by
  induction xs generalizing st with
  | nil => simp [runLoop]
  | cons x xs ih =>
    show (runLoop write unres (loopStep write unres st x) xs).2 = _
    rw [ih]
    rw [List.filterMap_cons]
    unfold loopStep unresOf
    cases hw : write x with
    | some kv =>
      obtain ⟨k, v⟩ := kv
      simp
    | none =>
      cases hu : unres x with
      | some u => simp
      | none => simp

theorem dlookup_dinsert_self (m : List (String × PerfRec)) (k : String) (v : PerfRec) :
    dlookup (dinsert m k v) k = some v := by
  induction m with
  | nil => simp [dinsert, dlookup]
  | cons p m ih =>
    obtain ⟨k0, v0⟩ := p
    by_cases h : k0 = k
    · simp [dinsert, dlookup, h]
    · simp [dinsert, dlookup, h, ih]

theorem dlookup_dinsert_ne (m : List (String × PerfRec)) (k k' : String) (v : PerfRec)
    (h : k' ≠ k) : dlookup (dinsert m k' v) k = dlookup m k := by
  induction m with
  | nil => simp [dinsert, dlookup, h]
  | cons p m ih =>
    obtain ⟨k0, v0⟩ := p
    by_cases h0 : k0 = k'
    · subst h0
      simp [dinsert, dlookup, h]
    · simp only [dinsert, if_neg h0]
      by_cases h1 : k0 = k
      · simp [dlookup, h1]
      · simp [dlookup, h1, ih]

theorem lastWriteAcc_init (write : α → Option (String × PerfRec)) (k : String)
    (xs : List α) : ∀ a : Option PerfRec, lastWriteAcc write k a xs =
      match lastWriteVal write k xs with
      | some v => some v
      | none => a := by
  induction xs with
  | nil => intro a; rfl
  | cons x xs ih =>
    intro a
    show lastWriteAcc write k (match write x with
      | some (k', v) => if k' = k then some v else a
      | none => a) xs = _
    have hcons : lastWriteVal write k (x :: xs) =
        lastWriteAcc write k (match write x with
          | some (k', v) => if k' = k then some v else none
          | none => none) xs := rfl
    rw [hcons]
    cases hw : write x with
    | none =>
      dsimp only
      rw [ih a]
      rw [ih none]
      cases lastWriteVal write k xs <;> rfl
    | some kv =>
      obtain ⟨k', v⟩ := kv
      dsimp only
      by_cases hk : k' = k
      · rw [if_pos hk, if_pos hk]
        rw [ih (some v)]
        cases lastWriteVal write k xs <;> rfl
      · rw [if_neg hk, if_neg hk]
        rw [ih a]
        rw [ih none]
        cases lastWriteVal write k xs <;> rfl

theorem dlookup_insFold (write : α → Option (String × PerfRec)) (k : String)
    (xs : List α) : ∀ m : List (String × PerfRec),
      dlookup (insFold write m xs) k =
        match lastWriteVal write k xs with
        | some v => some v
        | none => dlookup m k := by
  induction xs with
  | nil => intro m; rfl
  | cons x xs ih =>
    intro m
    show dlookup (insFold write (insStep write m x) xs) k = _
    rw [ih]
    have hcons : lastWriteVal write k (x :: xs) =
        lastWriteAcc write k (match write x with
          | some (k', v) => if k' = k then some v else none
          | none => none) xs := rfl
    rw [hcons]
    unfold insStep
    cases hw : write x with
    | none =>
      dsimp only
      rw [show lastWriteAcc write k none xs = lastWriteVal write k xs from rfl]
    | some kv =>
      obtain ⟨k', v⟩ := kv
      dsimp only
      by_cases hk : k' = k
      · rw [if_pos hk, lastWriteAcc_init write k xs (some v)]
        subst hk
        cases lastWriteVal write k' xs with
        | none => simp [dlookup_dinsert_self]
        | some w => rfl
      · rw [if_neg hk]
        rw [show lastWriteAcc write k none xs = lastWriteVal write k xs from rfl]
        cases lastWriteVal write k xs with
        | none => simp [dlookup_dinsert_ne m k k' v hk]
        | some w => rfl

theorem lastWriteVal_none (write : α → Option (String × PerfRec)) (k : String)
    (xs : List α) (h : ∀ x ∈ xs, ∀ v : PerfRec, ¬ write x = some (k, v)) :
    lastWriteVal write k xs = none := by
  induction xs with
  | nil => rfl
  | cons x xs ih =>
    have hcons : lastWriteVal write k (x :: xs) =
        lastWriteAcc write k (match write x with
          | some (k', v) => if k' = k then some v else none
          | none => none) xs := rfl
    rw [hcons]
    cases hw : write x with
    | none =>
      dsimp only
      exact ih (fun y hy => h y (by simp [hy]))
    | some kv =>
      obtain ⟨k', v⟩ := kv
      dsimp only
      rw [if_neg (fun hk => h x (by simp) v (by rw [hw, hk]))]
      exact ih (fun y hy => h y (by simp [hy]))

theorem dlookup_insFold_of_no_write (write : α → Option (String × PerfRec))
    (k : String) (xs : List α) (m : List (String × PerfRec))
    (h : ∀ x ∈ xs, ∀ v : PerfRec, ¬ write x = some (k, v)) :
    dlookup (insFold write m xs) k = dlookup m k := by
  rw [dlookup_insFold]
  rw [lastWriteVal_none write k xs h]

theorem lastWriteVal_eq_getLast (write : α → Option (String × PerfRec)) (k : String)
    (xs : List α) :
    lastWriteVal write k xs =
      match (xs.filter (writesKey write k)).getLast? with
      | some x => (write x).map Prod.snd
      | none => none := by
  induction xs using List.reverseRecOn with
  | nil => rfl
  | append_singleton xs x ih =>
    have hfold : lastWriteVal write k (xs ++ [x]) =
        (match write x with
          | some (k', v) => if k' = k then some v else lastWriteVal write k xs
          | none => lastWriteVal write k xs) := by
      show List.foldl _ none (xs ++ [x]) = _
      rw [List.foldl_append]
      rfl
    rw [hfold, List.filter_append]
    cases hw : write x with
    | none =>
      have hwk : writesKey write k x = false := by simp [writesKey, hw]
      simp only [List.filter_cons, hwk, List.filter_nil]
      simpa using ih
    | some kv =>
      obtain ⟨k', v⟩ := kv
      by_cases hk : k' = k
      · have hwk : writesKey write k x = true := by simp [writesKey, hw, hk]
        simp only [List.filter_cons, hwk, if_pos, List.filter_nil]
        rw [if_pos hk, List.getLast?_concat]
        simp [hw]
      · have hwk : writesKey write k x = false := by simp [writesKey, hw, hk]
        simp only [List.filter_cons, hwk, List.filter_nil]
        rw [if_neg hk]
        simpa using ih

theorem lastWriteVal_some (write : α → Option (String × PerfRec)) (k : String)
    (xs : List α) (v : PerfRec) (h : lastWriteVal write k xs = some v) :
    ∃ x ∈ xs, write x = some (k, v) := by
  rw [lastWriteVal_eq_getLast] at h
  cases hl : (xs.filter (writesKey write k)).getLast? with
  | none => rw [hl] at h; exact Option.noConfusion h
  | some x =>
    rw [hl] at h
    dsimp only at h
    have hx : x ∈ xs.filter (writesKey write k) := List.mem_of_getLast?_eq_some hl
    rw [List.mem_filter] at hx
    obtain ⟨hmem, hwk⟩ := hx
    unfold writesKey at hwk
    refine ⟨x, hmem, ?_⟩
    cases hw : write x with
    | none => rw [hw] at hwk; exact Bool.noConfusion hwk
    | some kv =>
      obtain ⟨k', v'⟩ := kv
      rw [hw] at hwk h
      dsimp only at hwk h
      simp only [decide_eq_true_eq] at hwk
      simp only [Option.map_some'] at h
      rw [hwk, Option.some.inj h]

theorem keys_dinsert (m : List (String × PerfRec)) (k : String) (v : PerfRec) :
    (dinsert m k v).map Prod.fst =
      if k ∈ m.map Prod.fst then m.map Prod.fst else m.map Prod.fst ++ [k] := by
  induction m with
  | nil => simp [dinsert]
  | cons p m ih =>
    obtain ⟨k0, v0⟩ := p
    by_cases h : k0 = k
    · subst h
      simp [dinsert]
    · simp only [dinsert, if_neg h, List.map_cons, ih]
      by_cases hm : k ∈ m.map Prod.fst
      · rw [if_pos hm, if_pos (by simp [hm])]
      · rw [if_neg hm, if_neg (by
          simp only [List.mem_cons]
          push_neg
          exact ⟨fun e => h e.symm, hm⟩)]
        simp

theorem nodup_keys_dinsert (m : List (String × PerfRec)) (k : String) (v : PerfRec)
    (h : (m.map Prod.fst).Nodup) : ((dinsert m k v).map Prod.fst).Nodup := by
  rw [keys_dinsert]
  by_cases hm : k ∈ m.map Prod.fst
  · rw [if_pos hm]; exact h
  · rw [if_neg hm]
    rw [List.nodup_append]
    exact ⟨h, List.nodup_singleton k, by simpa using hm⟩

theorem nodup_keys_insFold (write : α → Option (String × PerfRec)) (xs : List α) :
    ∀ m : List (String × PerfRec), (m.map Prod.fst).Nodup →
      ((insFold write m xs).map Prod.fst).Nodup := by
  induction xs with
  | nil => exact fun m h => h
  | cons x xs ih =>
    intro m h
    show ((insFold write (insStep write m x) xs).map Prod.fst).Nodup
    apply ih
    unfold insStep
    cases write x with
    | none => exact h
    | some kv => exact nodup_keys_dinsert m kv.1 kv.2 h

theorem dlookup_none_of_not_mem (m : List (String × PerfRec)) (k : String)
    (h : ¬ k ∈ m.map Prod.fst) : dlookup m k = none := by
  induction m with
  | nil => rfl
  | cons p m ih =>
    obtain ⟨k0, v0⟩ := p
    simp only [List.map_cons, List.mem_cons] at h
    push_neg at h
    simp only [dlookup]
    rw [if_neg (fun e => h.1 e.symm)]
    exact ih h.2

theorem filter_key_of_not_mem (m : List (String × PerfRec)) (k : String)
    (h : ¬ k ∈ m.map Prod.fst) :
    m.filter (fun p => decide (p.1 = k)) = [] := by
  rw [List.filter_eq_nil_iff]
  intro p hp
  simp only [decide_eq_true_eq]
  intro he
  exact h (by rw [← he]; exact List.mem_map_of_mem Prod.fst hp)

theorem dlookup_some_filter (m : List (String × PerfRec)) (k : String) (v : PerfRec)
    (hnd : (m.map Prod.fst).Nodup) (hl : dlookup m k = some v) :
    m.filter (fun p => decide (p.1 = k)) = [(k, v)] := by
  induction m with
  | nil => exact Option.noConfusion hl
  | cons p m ih =>
    obtain ⟨k0, v0⟩ := p
    simp only [List.map_cons, List.nodup_cons] at hnd
    by_cases h : k0 = k
    · subst h
      simp only [dlookup, if_pos rfl] at hl
      obtain rfl := Option.some.inj hl
      simp only [List.filter_cons, decide_eq_true_eq]
      rw [if_pos (by simp)]
      rw [filter_key_of_not_mem m k0 hnd.1]
    · simp only [dlookup, if_neg h] at hl
      simp only [List.filter_cons]
      rw [if_neg (by simp [h])]
      exact ih hnd.2 hl

/-! ## Composite keys determine identities -/

theorem append_space_inj (a : List Char) :
    ∀ b x y : List Char, (∀ c ∈ a, ¬ c = ' ') → (∀ c ∈ b, ¬ c = ' ') →
      a ++ ' ' :: x = b ++ ' ' :: y → a = b ∧ x = y := by
  induction a with
  | nil =>
    intro b x y _ hb h
    cases b with
    | nil =>
      simp only [List.nil_append] at h
      exact ⟨rfl, List.tail_eq_of_cons_eq h⟩
    | cons c b' =>
      exfalso
      simp only [List.nil_append, List.cons_append] at h
      exact hb c (by simp) (List.head_eq_of_cons_eq h).symm
  | cons c a' ih =>
    intro b x y ha hb h
    cases b with
    | nil =>
      exfalso
      simp only [List.cons_append, List.nil_append] at h
      exact ha c (by simp) (List.head_eq_of_cons_eq h)
    | cons c0 b' =>
      simp only [List.cons_append] at h
      have hc := List.head_eq_of_cons_eq h
      have ht := List.tail_eq_of_cons_eq h
      obtain ⟨h1, h2⟩ := ih b' x y (fun d hd => ha d (by simp [hd]))
        (fun d hd => hb d (by simp [hd])) ht
      exact ⟨by rw [hc, h1], h2⟩

theorem word_no_space (c : Char) (h : isWordChar c = true) : ¬ c = ' ' :=
  fun e => by rw [e] at h; exact absurd h (by decide)

theorem digit_no_space (c : Char) (h : c.isDigit = true) : ¬ c = ' ' :=
  fun e => by rw [e] at h; exact absurd h (by decide)

theorem shaped_exp_no_space (i : OptionIdentity) (h : IdShaped i) :
    ∀ c ∈ i.expiration.data, ¬ c = ' ' := by
  obtain ⟨_, ⟨a, b, c', d, e, f, ha, hb, hc', hd, he, hf, hshape⟩, _, _⟩ := h
  intro c hc
  rw [hshape] at hc
  simp only [List.mem_cons] at hc
  rcases hc with rfl | rfl | rfl | rfl | rfl | rfl | rfl | rfl | hc
  · exact digit_no_space c ha
  · exact digit_no_space c hb
  · decide
  · exact digit_no_space c hc'
  · exact digit_no_space c hd
  · decide
  · exact digit_no_space c he
  · exact digit_no_space c hf
  · exact absurd hc (List.not_mem_nil c)

theorem shaped_otype_no_space (i : OptionIdentity) (h : IdShaped i) :
    ∀ c ∈ i.otype.data, ¬ c = ' ' := by
  obtain ⟨_, _, hty, _⟩ := h
  intro c hc
  rcases hty with he | he <;> rw [he] at hc <;>
    simp only [List.mem_singleton, show ("P" : String).data = ['P'] from rfl,
      show ("C" : String).data = ['C'] from rfl] at hc <;> subst hc <;> decide

theorem compositeKey_data (i : OptionIdentity) :
    (compositeKey i).data =
      i.ticker.data ++ ' ' :: (i.expiration.data ++ ' ' ::
        (i.otype.data ++ ' ' :: i.strike.data)) := by
  show (i.ticker ++ " " ++ i.expiration ++ " " ++ i.otype ++ " " ++ i.strike).data = _
  simp only [String.data_append]
  simp [List.append_assoc]

theorem compositeKey_inj (i1 i2 : OptionIdentity) (h1 : IdShaped i1) (h2 : IdShaped i2)
    (h : compositeKey i1 = compositeKey i2) : i1 = i2 := by
  have hd := congrArg String.data h
  rw [compositeKey_data, compositeKey_data] at hd
  obtain ⟨ht, hd⟩ := append_space_inj _ _ _ _
    (fun c hc => word_no_space c (h1.1.2 c hc))
    (fun c hc => word_no_space c (h2.1.2 c hc)) hd
  obtain ⟨he, hd⟩ := append_space_inj _ _ _ _
    (shaped_exp_no_space i1 h1) (shaped_exp_no_space i2 h2) hd
  obtain ⟨hy, hs⟩ := append_space_inj _ _ _ _
    (shaped_otype_no_space i1 h1) (shaped_otype_no_space i2 h2) hd
  obtain ⟨t1, e1, y1, s1⟩ := i1
  obtain ⟨t2, e2, y2, s2⟩ := i2
  rw [OptionIdentity.mk.injEq]
  exact ⟨String.ext ht, String.ext he, String.ext hy, String.ext hs⟩

theorem compositeKey_has_space (i : OptionIdentity) : ' ' ∈ (compositeKey i).data := by
  rw [compositeKey_data]
  simp

/-! ## Engine components -/

theorem mem_dedupFirst (l : List String) :
    ∀ seen x, x ∈ dedupFirst seen l ↔ (x ∈ l ∧ ¬ x ∈ seen) := by
  induction l with
  | nil => simp [dedupFirst]
  | cons a l ih =>
    intro seen x
    unfold dedupFirst
    by_cases ha : a ∈ seen
    · rw [if_pos ha, ih]
      constructor
      · rintro ⟨hx, hns⟩
        exact ⟨by simp [hx], hns⟩
      · rintro ⟨hx, hns⟩
        rcases List.mem_cons.mp hx with rfl | hx
        · exact absurd ha hns
        · exact ⟨hx, hns⟩
    · rw [if_neg ha]
      rw [List.mem_cons, ih]
      constructor
      · rintro (rfl | ⟨hx, hns⟩)
        · exact ⟨by simp, ha⟩
        · exact ⟨by simp [hx], fun hs => hns (by simp [hs])⟩
      · rintro ⟨hx, hns⟩
        by_cases hxa : x = a
        · exact Or.inl hxa
        · rcases List.mem_cons.mp hx with rfl | hx
          · exact Or.inl rfl
          · exact Or.inr ⟨hx, by simp [hxa, hns]⟩

theorem dedupFirst_nodup (l : List String) : ∀ seen, (dedupFirst seen l).Nodup := by
  induction l with
  | nil => intro seen; exact List.nodup_nil
  | cons a l ih =>
    intro seen
    unfold dedupFirst
    by_cases ha : a ∈ seen
    · rw [if_pos ha]; exact ih seen
    · rw [if_neg ha]
      rw [List.nodup_cons]
      refine ⟨fun hmem => ?_, ih (a :: seen)⟩
      exact ((mem_dedupFirst l (a :: seen) a).mp hmem).2 (by simp)

theorem uniqueTickers_nodup (buys : List Row) : (uniqueTickers buys).Nodup :=
  dedupFirst_nodup _ []

theorem mem_uniqueTickers (buys : List Row) (t : String) :
    t ∈ uniqueTickers buys ↔ ∃ r ∈ buys, r.instrument = some t := by
  unfold uniqueTickers
  rw [mem_dedupFirst]
  simp [List.mem_filterMap]

theorem stockWrite_char (b s : List Row) (t k : String) (v : PerfRec)
    (h : stockWrite b s t = some (k, v)) :
    t = k ∧ v = stockRec (instrRows b t) (instrRows s t) ∧
      instrRows b t ≠ [] ∧ instrRows s t ≠ [] := by
  unfold stockWrite at h
  split at h
  · rename_i hcond
    rw [Option.some_inj, Prod.mk.injEq] at h
    exact ⟨h.1, h.2.symm, hcond⟩
  · exact Option.noConfusion h

theorem stockWrite_none_iff (b s : List Row) (t : String) :
    stockWrite b s t = none ↔ ¬ (instrRows b t ≠ [] ∧ instrRows s t ≠ []) := by
  unfold stockWrite
  split
  · rename_i hcond
    simp [hcond]
  · rename_i hcond
    simp [hcond]

theorem stockUnres_char (b s : List Row) (t u : String)
    (h : stockUnres b s t = some u) :
    u = t ∧ ¬ (instrRows b t ≠ [] ∧ instrRows s t ≠ []) := by
  unfold stockUnres at h
  split at h
  · exact Option.noConfusion h
  · rename_i hcond
    exact ⟨(Option.some.inj h).symm, hcond⟩

theorem optionWrite_char (stos : List Row) (r : Row) (k : String) (v : PerfRec)
    (h : optionWrite stos r = some (k, v)) :
    ∃ i : OptionIdentity, extract_option_details r.description = some i ∧
      matchSTO stos i.ticker i.expiration ≠ [] ∧ k = compositeKey i ∧
      v = optionRec r (matchSTO stos i.ticker i.expiration) := by
  unfold optionWrite at h
  split at h
  · rename_i i hex
    split at h
    · rename_i hne
      rw [Option.some_inj, Prod.mk.injEq] at h
      exact ⟨i, hex, hne, h.1.symm, h.2.symm⟩
    · exact Option.noConfusion h
  · exact Option.noConfusion h

theorem optionUnres_char (stos : List Row) (r : Row) (u : String)
    (h : optionUnres stos r = some u) :
    ∃ i : OptionIdentity, extract_option_details r.description = some i ∧
      matchSTO stos i.ticker i.expiration = [] ∧ u = compositeKey i := by
  unfold optionUnres at h
  split at h
  · rename_i i hex
    split at h
    · exact Option.noConfusion h
    · rename_i hne
      rw [not_not] at hne
      exact ⟨i, hex, hne, (Option.some.inj h).symm⟩
  · exact Option.noConfusion h

theorem analyze_fst (raw : List RawRow) :
    (analyze_performance raw).1 =
      insFold (optionWrite (stoRows (raw.map cleanRow)))
        (insFold (stockWrite (buyRows (raw.map cleanRow)) (sellRows (raw.map cleanRow)))
          [] (uniqueTickers (buyRows (raw.map cleanRow))))
        (btoRows (raw.map cleanRow)) := by
  show (runLoop _ _ (runLoop _ _ ([], []) _) _).1 = _
  rw [runLoop_fst, runLoop_fst]

theorem analyze_snd (raw : List RawRow) :
    (analyze_performance raw).2 =
      (uniqueTickers (buyRows (raw.map cleanRow))).filterMap
        (unresOf (stockWrite (buyRows (raw.map cleanRow)) (sellRows (raw.map cleanRow)))
          (stockUnres (buyRows (raw.map cleanRow)) (sellRows (raw.map cleanRow)))) ++
      (btoRows (raw.map cleanRow)).filterMap
        (unresOf (optionWrite (stoRows (raw.map cleanRow)))
          (optionUnres (stoRows (raw.map cleanRow)))) := by
  show (runLoop _ _ (runLoop _ _ ([], []) _) _).2 = _
  rw [runLoop_snd, runLoop_snd]
  simp

theorem ticker_no_space (raw : List RawRow) (hsp : raw.all spaceFreeInstr = true)
    (r : Row) (hr : r ∈ raw.map cleanRow) (t : String) (ht : r.instrument = some t) :
    ¬ ' ' ∈ t.data := by
  obtain ⟨r0, hr0, rfl⟩ := List.mem_map.mp hr
  have hsp0 := List.all_eq_true.mp hsp r0 hr0
  unfold spaceFreeInstr at hsp0
  have hinstr : r0.instrument = some t := ht
  rw [hinstr] at hsp0
  intro hmem
  have := List.all_eq_true.mp hsp0 ' ' hmem
  simp at this

theorem filter_eq_singleton_of_nodup (p : String → Bool) (ts : List String) (k : String)
    (hnd : ts.Nodup) (hk : k ∈ ts) (hpk : p k = true)
    (himp : ∀ t, p t = true → t = k) : ts.filter p = [k] := by
  induction ts with
  | nil => exact absurd hk (List.not_mem_nil k)
  | cons t0 ts ih =>
    rw [List.nodup_cons] at hnd
    by_cases h0 : p t0 = true
    · have ht0 : t0 = k := himp t0 h0
      subst ht0
      simp only [List.filter_cons, if_pos h0]
      have : ts.filter p = [] := by
        rw [List.filter_eq_nil_iff]
        intro t ht hp
        exact hnd.1 ((himp t hp) ▸ ht)
      rw [this]
    · simp only [List.filter_cons, if_neg h0]
      rcases List.mem_cons.mp hk with rfl | hk'
      · exact absurd hpk h0
      · exact ih hnd.2 hk'

theorem no_option_write_spacefree (stos : List Row) (btos : List Row) (k : String)
    (hk : ¬ ' ' ∈ k.data) :
    ∀ r ∈ btos, ∀ v : PerfRec, ¬ optionWrite stos r = some (k, v) := by
  intro r _ v h
  obtain ⟨i, _, _, hkey, _⟩ := optionWrite_char stos r k v h
  exact hk (hkey ▸ compositeKey_has_space i)

theorem stock_fold_lookup_none (b s : List Row) (ts : List String) (k : String)
    (hk : stockWrite b s k = none ∨ ¬ k ∈ ts) :
    dlookup (insFold (stockWrite b s) [] ts) k = none := by
  rw [dlookup_insFold_of_no_write]
  · rfl
  · intro t htm v hw
    obtain ⟨ht, _, _⟩ := stockWrite_char b s t k v hw
    subst ht
    rcases hk with hnone | hnm
    · rw [hw] at hnone
      exact Option.noConfusion hnone
    · exact hnm htm

theorem stockWrite_pos (b s : List Row) (k : String)
    (hb : instrRows b k ≠ []) (hs : instrRows s k ≠ []) :
    stockWrite b s k = some (k, stockRec (instrRows b k) (instrRows s k)) := by
  unfold stockWrite
  rw [if_pos ⟨hb, hs⟩]

theorem stock_fold_lookup_some (b s : List Row) (ts : List String) (k : String)
    (hnd : ts.Nodup) (hmem : k ∈ ts)
    (hb : instrRows b k ≠ []) (hs : instrRows s k ≠ []) :
    dlookup (insFold (stockWrite b s) [] ts) k =
      some (stockRec (instrRows b k) (instrRows s k)) := by
  rw [dlookup_insFold, lastWriteVal_eq_getLast]
  have hfil : ts.filter (writesKey (stockWrite b s) k) = [k] := by
    apply filter_eq_singleton_of_nodup _ ts k hnd hmem
    · unfold writesKey
      rw [stockWrite_pos b s k hb hs]
      simp
    · intro t hp
      unfold writesKey at hp
      cases hw : stockWrite b s t with
      | none => rw [hw] at hp; exact Bool.noConfusion hp
      | some kv =>
        obtain ⟨k', v⟩ := kv
        rw [hw] at hp
        dsimp only at hp
        rw [decide_eq_true_eq] at hp
        obtain ⟨ht, _, _⟩ := stockWrite_char b s t k' v hw
        rw [ht, hp]
  rw [hfil]
  simp only [List.getLast?_singleton]
  rw [stockWrite_pos b s k hb hs]
  rfl

/-! ## C3: last write wins for repeated option opens -/

/-- C3: when two or more BTO rows parse to the identical option identity and
that identity has at least one matching STO row, the final performance
mapping holds exactly one entry under the composite key, and its record is
the one computed from the last such BTO row. -/
theorem c3_last_write_wins (raw : List RawRow) (i : OptionIdentity) (rlast : Row)
    (h2 : 2 ≤ ((btoRows (raw.map cleanRow)).filter
      (fun r => decide (extract_option_details r.description = some i))).length)
    (hms : matchSTO (stoRows (raw.map cleanRow)) i.ticker i.expiration ≠ [])
    (hlast : ((btoRows (raw.map cleanRow)).filter
      (fun r => decide (extract_option_details r.description = some i))).getLast? =
      some rlast) :
    (analyze_performance raw).1.filter (fun p => decide (p.1 = compositeKey i)) =
      [(compositeKey i,
        optionRec rlast (matchSTO (stoRows (raw.map cleanRow)) i.ticker i.expiration))] := by
  have hrl : rlast ∈ (btoRows (raw.map cleanRow)).filter
      (fun r => decide (extract_option_details r.description = some i)) :=
    List.mem_of_getLast?_eq_some hlast
  rw [List.mem_filter, decide_eq_true_eq] at hrl
  obtain ⟨hrlmem, hrlex⟩ := hrl
  have hish : IdShaped i := extract_shape _ i hrlex
  have hfeq : (btoRows (raw.map cleanRow)).filter
      (writesKey (optionWrite (stoRows (raw.map cleanRow))) (compositeKey i)) =
      (btoRows (raw.map cleanRow)).filter
        (fun r => decide (extract_option_details r.description = some i)) := by
    apply List.filter_congr
    intro r _
    unfold writesKey optionWrite
    cases hex : extract_option_details r.description with
    | none => simp
    | some i' =>
      dsimp only
      by_cases hi : i' = i
      · subst hi
        rw [if_pos hms]
        simp
      · rw [decide_eq_false (fun he : some i' = some i => hi (Option.some.inj he))]
        by_cases hne : matchSTO (stoRows (raw.map cleanRow)) i'.ticker i'.expiration ≠ []
        · rw [if_pos hne]
          dsimp only
          rw [decide_eq_false]
          intro hkey
          exact hi (compositeKey_inj i' i (extract_shape _ i' hex) hish hkey)
        · rw [if_neg hne]
  have hlook : dlookup (analyze_performance raw).1 (compositeKey i) =
      some (optionRec rlast
        (matchSTO (stoRows (raw.map cleanRow)) i.ticker i.expiration)) := by
    rw [analyze_fst, dlookup_insFold, lastWriteVal_eq_getLast, hfeq, hlast]
    show (match Option.map Prod.snd (optionWrite (stoRows (raw.map cleanRow)) rlast) with
      | some v => some v
      | none => dlookup _ (compositeKey i)) = _
    unfold optionWrite
    rw [hrlex]
    dsimp only
    rw [if_pos hms]
    rfl
  have hnd : ((analyze_performance raw).1.map Prod.fst).Nodup := by
    rw [analyze_fst]
    exact nodup_keys_insFold _ _ _ (nodup_keys_insFold _ _ [] List.nodup_nil)
  exact dlookup_some_filter _ _ _ hnd hlook

/-- C3 witness: with two identical opens and one matching STO, the mapping
holds exactly the second open's record. -/
theorem c3_witness :
    (analyze_performance twoOpensRows).1.filter
      (fun p => decide (p.1 = compositeKey ⟨"PLTR", "01/19/24", "C", "25"⟩)) =
      [(compositeKey ⟨"PLTR", "01/19/24", "C", "25"⟩,
        optionRec (cleanRow ⟨some "PLTR", some "BTO", "3", "1", "", "PLTR 01/19/24 C 25"⟩)
          (matchSTO (stoRows (twoOpensRows.map cleanRow)) "PLTR" "01/19/24"))] :=
  c3_last_write_wins twoOpensRows ⟨"PLTR", "01/19/24", "C", "25"⟩
    (cleanRow ⟨some "PLTR", some "BTO", "3", "1", "", "PLTR 01/19/24 C 25"⟩)
    (by decide) (by decide) (by decide)

/-! ## C1: stock reconciliation -/

/-- C1 counterexample: a stock position whose instrument string coincides
with a composite option key gets its record overwritten by the option loop,
so the final mapping does not hold the stock formula's record. -/
theorem c1_overwrite_cex :
    instrRows (buyRows (collideRows.map cleanRow)) "X 01/02/03 C 5" ≠ [] ∧
    instrRows (sellRows (collideRows.map cleanRow)) "X 01/02/03 C 5" ≠ [] ∧
    dlookup (analyze_performance collideRows).1 "X 01/02/03 C 5" =
      some ⟨some 1, some 3, some 150⟩ ∧
    ¬ dlookup (analyze_performance collideRows).1 "X 01/02/03 C 5" =
      some (stockRec (instrRows (buyRows (collideRows.map cleanRow)) "X 01/02/03 C 5")
        (instrRows (sellRows (collideRows.map cleanRow)) "X 01/02/03 C 5")) := by
  exact ⟨by decide, by decide, by decide, by decide⟩

/-- C1 amended: when no instrument string contains a space (so bare-ticker
keys cannot collide with composite option keys), every ticker of the Buy
subset with nonempty Buy and Sell row sets is recorded under its bare key
with exactly the stock formula's record: quantity summed over Buy rows,
profit/loss as Sell proceeds minus Buy cost, and return percent as
profit/loss over cost times 100 (0 when the cost is 0). -/
theorem c1_stock_reconciliation (raw : List RawRow)
    (hsp : raw.all spaceFreeInstr = true) (r : Row) (t : String)
    (hr : r ∈ buyRows (raw.map cleanRow)) (hinstr : r.instrument = some t)
    (hsell : instrRows (sellRows (raw.map cleanRow)) t ≠ []) :
    dlookup (analyze_performance raw).1 t =
      some (stockRec (instrRows (buyRows (raw.map cleanRow)) t)
        (instrRows (sellRows (raw.map cleanRow)) t)) := by
  have hbuy : instrRows (buyRows (raw.map cleanRow)) t ≠ [] := by
    intro hnil
    have : r ∈ instrRows (buyRows (raw.map cleanRow)) t := by
      unfold instrRows
      rw [List.mem_filter]
      exact ⟨hr, by simp [hinstr]⟩
    rw [hnil] at this
    exact List.not_mem_nil r this
  have hts : t ∈ uniqueTickers (buyRows (raw.map cleanRow)) :=
    (mem_uniqueTickers _ t).mpr ⟨r, hr, hinstr⟩
  have hspace : ¬ ' ' ∈ t.data :=
    ticker_no_space raw hsp r (List.mem_filter.mp hr).1 t hinstr
  rw [analyze_fst]
  rw [dlookup_insFold_of_no_write _ _ _ _
    (no_option_write_spacefree (stoRows (raw.map cleanRow)) _ t hspace)]
  exact stock_fold_lookup_some _ _ _ t (uniqueTickers_nodup _) hts hbuy hsell

/-- C1 witness: the spec's stock example: Buy 10 @ 100 and Sell 10 @ 120 of
`XYZ` yields quantity 10, profit/loss 200, return 20 percent. -/
theorem c1_witness :
    dlookup (analyze_performance xyzRows).1 "XYZ" =
      some ⟨some 10, some 200, some 20⟩ :=
  (c1_stock_reconciliation xyzRows (by decide)
    (cleanRow ⟨some "XYZ", some "Buy", "10", "$100", "($1,000.00)", ""⟩) "XYZ"
    (by decide) (by decide) (by decide)).trans (by decide)

/-! ## C4: mutual exclusivity -/

/-- C4 counterexample: a stock instrument string equal to a composite option
key produces that key in the unresolved list (no Sell rows) while the option
loop also records it in the performance mapping. -/
theorem c4_collision_cex :
    "Z 03/04/05 C 9" ∈ (analyze_performance collideRows3).2 ∧
    ¬ dlookup (analyze_performance collideRows3).1 "Z 03/04/05 C 9" = none := by
  exact ⟨by decide, by decide⟩

/-- C4 amended: when no instrument string contains a space, no key of the
returned performance mapping also appears in the returned unresolved list. -/
theorem c4_mutual_exclusivity (raw : List RawRow)
    (hsp : raw.all spaceFreeInstr = true) :
    ∀ k ∈ (analyze_performance raw).2,
      dlookup (analyze_performance raw).1 k = none := by
  intro k hk
  rw [analyze_snd] at hk
  rcases List.mem_append.mp hk with hk1 | hk2
  · -- unresolved stock ticker
    obtain ⟨t, hts, hu⟩ := List.mem_filterMap.mp hk1
    unfold unresOf at hu
    cases hw : stockWrite (buyRows (raw.map cleanRow)) (sellRows (raw.map cleanRow)) t with
    | some kv => rw [hw] at hu; exact Option.noConfusion hu
    | none =>
      rw [hw] at hu
      obtain ⟨hkt, _⟩ := stockUnres_char _ _ t k hu
      subst hkt
      obtain ⟨r, hrmem, hrin⟩ := (mem_uniqueTickers _ k).mp hts
      have hspace : ¬ ' ' ∈ k.data :=
        ticker_no_space raw hsp r (List.mem_filter.mp hrmem).1 k hrin
      rw [analyze_fst]
      rw [dlookup_insFold_of_no_write _ _ _ _
        (no_option_write_spacefree (stoRows (raw.map cleanRow)) _ k hspace)]
      exact stock_fold_lookup_none _ _ _ k (Or.inl hw)
  · -- unresolved option key
    obtain ⟨r, hrmem, hu⟩ := List.mem_filterMap.mp hk2
    unfold unresOf at hu
    cases hw : optionWrite (stoRows (raw.map cleanRow)) r with
    | some kv => rw [hw] at hu; exact Option.noConfusion hu
    | none =>
      rw [hw] at hu
      obtain ⟨i, hex, hempty, hki⟩ := optionUnres_char _ r k hu
      have hish : IdShaped i := extract_shape _ i hex
      rw [analyze_fst, dlookup_insFold]
      have hlw : lastWriteVal (optionWrite (stoRows (raw.map cleanRow))) k
          (btoRows (raw.map cleanRow)) = none := by
        apply lastWriteVal_none
        intro r' _ v hwv
        obtain ⟨i', hex', hne', hkey', _⟩ := optionWrite_char _ r' k v hwv
        have : i' = i :=
          compositeKey_inj i' i (extract_shape _ i' hex') hish (by rw [← hkey', ← hki])
        exact hne' (this ▸ hempty)
      rw [hlw]
      apply stock_fold_lookup_none _ _ _ k (Or.inr ?_)
      intro hts
      obtain ⟨r0, hr0mem, hr0in⟩ := (mem_uniqueTickers _ k).mp hts
      exact ticker_no_space raw hsp r0 (List.mem_filter.mp hr0mem).1 k hr0in
        (hki ▸ compositeKey_has_space i)

/-- C4 witness: in the mixed example the unresolved ticker `AAA` is absent
from the performance mapping. -/
theorem c4_witness :
    dlookup (analyze_performance mixedRows).1 "AAA" = none :=
  c4_mutual_exclusivity mixedRows (by decide) "AAA" (by decide)

/-! ## C6: open stock positions are unresolved -/

/-- C6 counterexample: the open stock position whose instrument string equals
a composite option key is reported unresolved, yet the option loop still
records a performance entry under the same key. -/
theorem c6_collision_cex :
    instrRows (buyRows (collideRows2.map cleanRow)) "Y 02/03/04 P 7" ≠ [] ∧
    instrRows (sellRows (collideRows2.map cleanRow)) "Y 02/03/04 P 7" = [] ∧
    "Y 02/03/04 P 7" ∈ (analyze_performance collideRows2).2 ∧
    ¬ dlookup (analyze_performance collideRows2).1 "Y 02/03/04 P 7" = none := by
  exact ⟨by decide, by decide, by decide, by decide⟩

/-- C6 amended: every ticker of the Buy subset with no Sell rows is emitted
in the unresolved list under its bare key — unconditionally, even when the
position is a deliberately held open long; and when additionally no
instrument string contains a space, no record exists under that key in the
performance mapping. -/
theorem c6_open_stock_unresolved (raw : List RawRow) (r : Row) (t : String)
    (hr : r ∈ buyRows (raw.map cleanRow)) (hinstr : r.instrument = some t)
    (hsell : instrRows (sellRows (raw.map cleanRow)) t = []) :
    t ∈ (analyze_performance raw).2 ∧
      (raw.all spaceFreeInstr = true →
        dlookup (analyze_performance raw).1 t = none) := by
  have hts : t ∈ uniqueTickers (buyRows (raw.map cleanRow)) :=
    (mem_uniqueTickers _ t).mpr ⟨r, hr, hinstr⟩
  have hw : stockWrite (buyRows (raw.map cleanRow)) (sellRows (raw.map cleanRow)) t
      = none := by
    rw [stockWrite_none_iff]
    intro hcond
    exact hcond.2 hsell
  constructor
  · rw [analyze_snd]
    apply List.mem_append.mpr
    left
    apply List.mem_filterMap.mpr
    refine ⟨t, hts, ?_⟩
    unfold unresOf
    rw [hw]
    unfold stockUnres
    rw [if_neg (fun hcond => hcond.2 hsell)]
  · intro hsp
    have hspace : ¬ ' ' ∈ t.data :=
      ticker_no_space raw hsp r (List.mem_filter.mp hr).1 t hinstr
    rw [analyze_fst]
    rw [dlookup_insFold_of_no_write _ _ _ _
      (no_option_write_spacefree (stoRows (raw.map cleanRow)) _ t hspace)]
    exact stock_fold_lookup_none _ _ _ t (Or.inl hw)

/-- C6 witness: the open long `AAA` is unresolved, and — the instruments of
the mixed example being space-free — absent from the performance mapping;
the unresolved-emission half also holds at the space-containing collision
input, where the amended claim makes no no-record promise. -/
theorem c6_witness :
    ("AAA" ∈ (analyze_performance mixedRows).2 ∧
      dlookup (analyze_performance mixedRows).1 "AAA" = none) ∧
    "Y 02/03/04 P 7" ∈ (analyze_performance collideRows2).2 :=
  ⟨⟨(c6_open_stock_unresolved mixedRows
      (cleanRow ⟨some "AAA", some "Buy", "5", "50", "", ""⟩) "AAA"
      (by decide) (by decide) (by decide)).1,
    (c6_open_stock_unresolved mixedRows
      (cleanRow ⟨some "AAA", some "Buy", "5", "50", "", ""⟩) "AAA"
      (by decide) (by decide) (by decide)).2 (by decide)⟩,
  (c6_open_stock_unresolved collideRows2
      (cleanRow ⟨some "Y 02/03/04 P 7", some "Buy", "2", "10", "", ""⟩) "Y 02/03/04 P 7"
      (by decide) (by decide) (by decide)).1⟩
